import Mathlib

set_option maxHeartbeats 1000000
set_option maxRecDepth 8192

/-!
Shallow embedding of the rslox lexical scanner (`src/lexer.rs`, `src/error.rs`).

The Rust scanner keeps a character-index cursor (`advance`, `peek`,
`peek_next` use `chars().nth(...)`) but compares it against the *byte*
length of the source (`is_at_end`) and slices the source by *byte*
indices (`&self.source[a..b]`).  The embedding models both index systems
explicitly: the source is a `List Char`, `byteLen` is its UTF-8 byte
length, and `byteSlice` is Rust byte-range string slicing (returning
`none` where Rust would panic: out of range or not on a character
boundary).  Rust panics (`unwrap`, slicing panics) are modelled by the
`ScanResult.panic` outcome; the `while` loops of the Rust code are
modelled with an explicit fuel parameter, `ScanResult.fuelOut` marking
fuel exhaustion (proved unreachable below).
-/

namespace RsLox

/-- UTF-8 byte size of one character (Rust `char::len_utf8`). -/
def csize (c : Char) : Nat :=
  if c.toNat < 0x80 then 1
  else if c.toNat < 0x800 then 2
  else if c.toNat < 0x10000 then 3
  else 4

/-- Byte length of a string given by its character sequence (Rust `String::len`). -/
def byteLen (l : List Char) : Nat := (l.map csize).sum

/-- Drop the first `n` bytes of a string.  `none` when `n` overruns the end or
does not fall on a character boundary (where Rust slicing would panic). -/
def dropBytes : List Char → Nat → Option (List Char)
  | l, 0 => some l
  | [], _ + 1 => none
  | c :: cs, n + 1 =>
    if csize c ≤ n + 1 then dropBytes cs (n + 1 - csize c) else none

/-- Take the first `n` bytes of a string, as characters.  `none` when `n`
overruns the end or does not fall on a character boundary. -/
def takeBytes : List Char → Nat → Option (List Char)
  | _, 0 => some []
  | [], _ + 1 => none
  | c :: cs, n + 1 =>
    if csize c ≤ n + 1 then (takeBytes cs (n + 1 - csize c)).map (c :: ·) else none

/-- Rust byte-range string slicing `&s[a..b]`; `none` exactly where Rust panics. -/
def byteSlice (l : List Char) (a b : Nat) : Option (List Char) :=
  if a ≤ b then (dropBytes l a).bind (fun t => takeBytes t (b - a)) else none

/-- `TokenType` from `src/lexer.rs`. -/
inductive TokenType where
  | LeftParen | RightParen | LeftBrace | RightBrace | Comma | Dot
  | Minus | Plus | Semicolon | Slash | Star
  | Bang | BangEqual | Equal | EqualEqual
  | Greater | GreaterEqual | Less | LessEqual
  | Identifier | String | Number
  | And | Class | Else | False | Fun | For | If | Nil | Or
  | Print | Return | Super | This | True | Var | While
  | Eof
deriving DecidableEq, Repr

/-- `Literal` from `src/lexer.rs`.  Rust's `Literal::Number` carries the `f64`
obtained by parsing the lexeme; floating-point values are not modelled, so the
`Number` constructor carries the parsed text itself (the parse's success is
modelled separately by `f64_parse_ok`). -/
inductive Literal where
  | String : List Char → Literal
  | Number : List Char → Literal
deriving DecidableEq, Repr

/-- `Token` from `src/lexer.rs`. -/
structure Token where
  token_type : TokenType
  lexeme : List Char
  literal : Option Literal
  line : Nat
deriving DecidableEq, Repr

/-- `LoxError` from `src/error.rs`. -/
structure LoxError where
  line : Nat
  message : String
deriving DecidableEq, Repr

/-- Outcome of a scanner operation: normal result, `LoxError`, Rust panic,
or exhaustion of the fuel that drives a modelled `while` loop. -/
inductive ScanResult (α : Type) where
  | ok : α → ScanResult α
  | err : LoxError → ScanResult α
  | panic : ScanResult α
  | fuelOut : ScanResult α
deriving DecidableEq, Repr

/-- `Scanner` state from `src/lexer.rs`. -/
structure Scanner where
  source : List Char
  tokens : List Token
  start : Nat
  current : Nat
  line : Nat
deriving DecidableEq, Repr

/-- The source consists of ASCII characters only. -/
def IsAsciiSrc (l : List Char) : Prop := ∀ c ∈ l, c.toNat < 128

/-- Number of newline characters in a character list. -/
def nl (l : List Char) : Nat := (l.filter (fun c => c == '\n')).length

namespace Scanner

/-- `Scanner::new`: note that `line` starts at 0. -/
def new (source : List Char) : Scanner :=
  { source := source, tokens := [], start := 0, current := 0, line := 0 }

/-- `Scanner::is_at_end`: compares the character cursor with the byte length. -/
abbrev is_at_end (s : Scanner) : Prop := byteLen s.source ≤ s.current

/-- The `'\0'` sentinel returned by `peek`/`peek_next` at end of input. -/
def nullChar : Char := Char.ofNat 0

/-- `Scanner::advance`: `self.source.chars().nth(self.current).unwrap()`;
`none` models the panic of `unwrap` when the character index is out of range. -/
def advance (s : Scanner) : Option (Char × Scanner) :=
  match s.source.get? s.current with
  | some c => some (c, { s with current := s.current + 1 })
  | none => none

/-- `Scanner::match_char`. -/
def match_char (s : Scanner) (arg : Char) : Bool × Scanner :=
  match s.source.get? s.current with
  | some c => if c = arg then (true, { s with current := s.current + 1 }) else (false, s)
  | none => (false, s)

/-- `Scanner::peek`. -/
def peek (s : Scanner) : Option Char :=
  if is_at_end s then some nullChar
  else s.source.get? s.current

/-- `Scanner::peek_next`. -/
def peek_next (s : Scanner) : Option Char :=
  if byteLen s.source ≤ s.current + 1 then some nullChar
  else s.source.get? (s.current + 1)

/-- `Scanner::add_token`: the lexeme is the byte slice
`self.source[self.start..self.current]`. -/
def add_token (s : Scanner) (token_type : TokenType) : ScanResult Scanner :=
  match byteSlice s.source s.start s.current with
  | some lexeme =>
    .ok { s with tokens :=
      s.tokens ++ [{ token_type := token_type, lexeme := lexeme, literal := none, line := s.line }] }
  | none => .panic

/-- `Scanner::add_token_literal`. -/
def add_token_literal (s : Scanner) (token_type : TokenType) (literal : Literal) :
    ScanResult Scanner :=
  match byteSlice s.source s.start s.current with
  | some lexeme =>
    .ok { s with tokens :=
      s.tokens ++ [{ token_type := token_type, lexeme := lexeme, literal := some literal, line := s.line }] }
  | none => .panic

/-- The comment-skipping loop of `scan_token`:
`while self.peek() != '\n' && !self.is_at_end() { self.advance(); }`. -/
def comment_loop : Nat → Scanner → ScanResult Scanner
  | 0, _ => .fuelOut
  | fuel + 1, s =>
    match peek s with
    | none => .panic
    | some c =>
      if c ≠ '\n' ∧ ¬ is_at_end s then
        match advance s with
        | some (_, s') => comment_loop fuel s'
        | none => .panic
      else .ok s

/-- The body loop of `Scanner::string`:
`while self.peek() != '"' && !self.is_at_end() { if self.peek() == '\n' { self.line += 1; } self.advance(); }`. -/
def string_loop : Nat → Scanner → ScanResult Scanner
  | 0, _ => .fuelOut
  | fuel + 1, s =>
    match peek s with
    | none => .panic
    | some c =>
      if c ≠ '"' ∧ ¬ is_at_end s then
        match advance (if c = '\n' then { s with line := s.line + 1 } else s) with
        | some (_, s') => string_loop fuel s'
        | none => .panic
      else .ok s

/-- `Scanner::string` (after the opening quote has been consumed). -/
def string (s : Scanner) : ScanResult Scanner :=
  match string_loop (s.source.length + 1) s with
  | .ok s1 =>
    if is_at_end s1 then .err { line := s1.line, message := "Unterminated string" }
    else
      match advance s1 with
      | some (_, s2) =>
        match byteSlice s2.source (s2.start + 1) (s2.current - 1) with
        | some value => add_token_literal s2 .String (.String value)
        | none => .panic
      | none => .panic
  | r => r

/-- A digit run of `Scanner::number`: `while self.peek().is_digit(10) { self.advance(); }`. -/
def digits_loop : Nat → Scanner → ScanResult Scanner
  | 0, _ => .fuelOut
  | fuel + 1, s =>
    match peek s with
    | none => .panic
    | some c =>
      if c.isDigit then
        match advance s with
        | some (_, s') => digits_loop fuel s'
        | none => .panic
      else .ok s

/-- Acceptance of Rust's `f64::from_str` (documented grammar:
`Sign? ( 'inf' | 'infinity' | 'nan' | Number )` with
`Number ::= Count | Count '.' Count? | '.' Count`, optional exponent
`('e'|'E') Sign? Count`, the words case-insensitive).  Only success is
modelled, not the floating-point value. -/
def strip_sign : List Char → List Char
  | [] => []
  | c :: r => if c = '+' ∨ c = '-' then r else c :: r

/-- The `inf` / `infinity` / `nan` words of the `f64::from_str` grammar. -/
def is_inf_nan (l : List Char) : Bool :=
  let low := l.map Char.toLower
  low = "inf".toList || low = "infinity".toList || low = "nan".toList

/-- Optional exponent part of the `f64::from_str` grammar. -/
def exp_ok : List Char → Bool
  | [] => true
  | c :: r =>
    if c = 'e' ∨ c = 'E' then !(strip_sign r).isEmpty && (strip_sign r).all Char.isDigit
    else false

/-- Mantissa-then-exponent part of the `f64::from_str` grammar. -/
def mantissa_exp_ok (l : List Char) : Bool :=
  match l.drop (l.takeWhile Char.isDigit).length with
  | [] => !(l.takeWhile Char.isDigit).isEmpty
  | c :: r2 =>
    if c = '.' then
      (!(l.takeWhile Char.isDigit).isEmpty || !(r2.takeWhile Char.isDigit).isEmpty) &&
        exp_ok (r2.drop (r2.takeWhile Char.isDigit).length)
    else !(l.takeWhile Char.isDigit).isEmpty && exp_ok (c :: r2)

/-- Success of `lexeme.parse::<f64>()`. -/
def f64_parse_ok (l : List Char) : Bool :=
  is_inf_nan (strip_sign l) || mantissa_exp_ok (strip_sign l)

/-- Tail of `Scanner::number`: `self.source[self.start..self.current].parse::<f64>().unwrap()`
followed by `add_token_literal`; a failing parse is the `unwrap` panic. -/
def finish_number (s : Scanner) : ScanResult Scanner :=
  match byteSlice s.source s.start s.current with
  | some lexeme =>
    if f64_parse_ok lexeme then add_token_literal s .Number (.Number lexeme)
    else .panic
  | none => .panic

/-- `Scanner::number` (after the first digit has been consumed). -/
def number (s : Scanner) : ScanResult Scanner :=
  match digits_loop (s.source.length + 1) s with
  | .ok s1 =>
    match peek s1 with
    | none => .panic
    | some c =>
      if c = '.' then
        match peek_next s1 with
        | none => .panic
        | some c2 =>
          if c2.isDigit then
            match advance s1 with
            | some (_, s2) =>
              match digits_loop (s2.source.length + 1) s2 with
              | .ok s3 => finish_number s3
              | r => r
            | none => .panic
          else finish_number s1
      else finish_number s1
  | r => r

/-- Rust `char::is_alphanumeric`, modelled on the ASCII range (codepoints
below `0x80`), where it coincides with ASCII letters and digits.  On higher
codepoints Rust consults Unicode tables that are not modelled; every theorem
whose truth depends on this function carries an ASCII hypothesis. -/
def is_alphanumeric (c : Char) : Bool := c.isAlpha || c.isDigit

/-- The identifier-continuation loop of `scan_token`:
`while self.peek().is_alphanumeric() { self.advance(); }`. -/
def ident_loop : Nat → Scanner → ScanResult Scanner
  | 0, _ => .fuelOut
  | fuel + 1, s =>
    match peek s with
    | none => .panic
    | some c =>
      if is_alphanumeric c then
        match advance s with
        | some (_, s') => ident_loop fuel s'
        | none => .panic
      else .ok s

/-- The keyword table of `scan_token` (`match text { "and" => ..., ... }`). -/
def keyword (text : List Char) : TokenType :=
  if text = "and".toList then .And
  else if text = "class".toList then .Class
  else if text = "else".toList then .Else
  else if text = "false".toList then .False
  else if text = "for".toList then .For
  else if text = "fun".toList then .Fun
  else if text = "if".toList then .If
  else if text = "nil".toList then .Nil
  else if text = "or".toList then .Or
  else if text = "print".toList then .Print
  else if text = "return".toList then .Return
  else if text = "super".toList then .Super
  else if text = "this".toList then .This
  else if text = "true".toList then .True
  else if text = "var".toList then .Var
  else if text = "while".toList then .While
  else .Identifier

/-- The identifier/keyword arm of `scan_token` (after the first character has
been consumed): identifier loop, then keyword lookup on the byte slice. -/
def identifier (s : Scanner) : ScanResult Scanner :=
  match ident_loop (s.source.length + 1) s with
  | .ok s1 =>
    match byteSlice s1.source s1.start s1.current with
    | some text => add_token s1 (keyword text)
    | none => .panic
  | r => r

/-- `Scanner::scan_token`. -/
def scan_token (s : Scanner) : ScanResult Scanner :=
  match advance s with
  | none => .panic
  | some (c, s) =>
    if c = '(' then add_token s .LeftParen
    else if c = ')' then add_token s .RightParen
    else if c = '\x7b' then add_token s .LeftBrace
    else if c = '\x7d' then add_token s .RightBrace
    else if c = ',' then add_token s .Comma
    else if c = '.' then add_token s .Dot
    else if c = '-' then add_token s .Minus
    else if c = '+' then add_token s .Plus
    else if c = ';' then add_token s .Semicolon
    else if c = '*' then add_token s .Star
    else if c = '!' then
      (let m := match_char s '='
       if m.1 then add_token m.2 .BangEqual else add_token m.2 .Bang)
    else if c = '=' then
      (let m := match_char s '='
       if m.1 then add_token m.2 .EqualEqual else add_token m.2 .Equal)
    else if c = '<' then
      (let m := match_char s '='
       if m.1 then add_token m.2 .LessEqual else add_token m.2 .Less)
    else if c = '>' then
      (let m := match_char s '='
       if m.1 then add_token m.2 .GreaterEqual else add_token m.2 .Greater)
    else if c = '/' then
      (let m := match_char s '/'
       if m.1 then comment_loop (m.2.source.length + 1) m.2 else add_token m.2 .Slash)
    else if c = ' ' ∨ c = '\r' ∨ c = '\t' then .ok s
    else if c = '\n' then .ok { s with line := s.line + 1 }
    else if c = '"' then string s
    else if c.isDigit then number s
    else if c.isAlpha ∨ c = '_' then identifier s
    else .err { line := s.line, message := "Unexpected character" }

/-- The main loop of `Scanner::scan_tokens`:
`while !self.is_at_end() { self.start = self.current; self.scan_token()?; }`
followed by pushing the `Eof` token. -/
def scan_loop : Nat → Scanner → ScanResult (List Token)
  | 0, _ => .fuelOut
  | fuel + 1, s =>
    if is_at_end s then
      .ok (s.tokens ++ [{ token_type := .Eof, lexeme := [], literal := none, line := s.line }])
    else
      match scan_token { s with start := s.current } with
      | .ok s' => scan_loop fuel s'
      | .err e => .err e
      | .panic => .panic
      | .fuelOut => .fuelOut

/-- What one successful `scan_token` step (from a state with `start = current`)
guarantees: the cursor advances within bounds, `line` counts the newlines
consumed, and either no token or exactly one non-`Eof` token is appended whose
lexeme is exactly the chunk of source consumed. -/
def STInv (s s' : Scanner) : Prop :=
  s'.source = s.source ∧ s'.start = s.start ∧ s.current < s'.current ∧
  s'.current ≤ s.source.length ∧
  s'.line + nl (s.source.take s.current) = s.line + nl (s.source.take s'.current) ∧
  (s'.tokens = s.tokens ∨ ∃ t, s'.tokens = s.tokens ++ [t] ∧
    t.lexeme = (s.source.drop s.current).take (s'.current - s.current) ∧
    t.line = s'.line ∧ t.token_type ≠ .Eof)

end Scanner

/-- `Scanner::scan_tokens` run on a fresh scanner (`Scanner::new` then
`scan_tokens`); the fuel `source.length + 2` is proved sufficient below. -/
def scan_tokens (source : List Char) : ScanResult (List Token) :=
  Scanner.scan_loop (source.length + 2) (Scanner.new source)

/-- The layout of a token list over `src` scanned from character position `i`:
each token's lexeme is the verbatim contiguous slice of the source consumed
for that token, the slices appear in source order and are disjoint, and each
token's `line` equals the number of newline characters of the source strictly
before the end of its lexeme.  `skip` steps hold the positions consumed
without emitting a token (whitespace, newlines, comments). -/
inductive Cover (src : List Char) : Nat → List Token → Prop where
  | done (i : Nat) (h : src.length ≤ i) : Cover src i []
  | skip (i j : Nat) (ts : List Token) (hij : i < j) (hj : j ≤ src.length)
      (h : Cover src j ts) : Cover src i ts
  | tok (i j : Nat) (t : Token) (ts : List Token) (hij : i < j) (hj : j ≤ src.length)
      (hlex : t.lexeme = (src.drop i).take (j - i))
      (hline : t.line = nl (src.take j))
      (h : Cover src j ts) : Cover src i (t :: ts)

/-- Concatenate (skipped characters, lexeme) pieces back together. -/
def interleave : List (List Char × List Char) → List Char
  | [] => []
  | p :: rest => p.1 ++ p.2 ++ interleave rest

/-- The maximal run of decimal digits of `src` starting at position `i`
(`while self.peek().is_digit(10) \x7b self.advance(); \x7d`). -/
def digit_run (src : List Char) (i : Nat) : List Char :=
  (src.drop i).takeWhile Char.isDigit

end RsLox

namespace RsLox

/-! ### Byte-length and ASCII basics -/

theorem csize_pos (c : Char) : 1 ≤ csize c := by
  simp only [csize]
  split
  · omega
  · split
    · omega
    · split <;> omega

theorem byteLen_nil : byteLen ([] : List Char) = 0 := rfl

theorem byteLen_cons (c : Char) (l : List Char) :
    byteLen (c :: l) = csize c + byteLen l := by
  simp [byteLen]

theorem length_le_byteLen (l : List Char) : l.length ≤ byteLen l := by
  induction l with
  | nil => simp [byteLen_nil]
  | cons c t ih =>
    have := csize_pos c
    simp only [byteLen_cons, List.length_cons]
    omega

theorem csize_eq_one {c : Char} (h : c.toNat < 128) : csize c = 1 := by
  have : c.toNat < 0x80 := by omega
  simp [csize, this]

theorem two_le_csize {c : Char} (h : ¬ c.toNat < 128) : 2 ≤ csize c := by
  simp only [csize]
  split
  · omega
  · split
    · omega
    · split <;> omega

theorem byteLen_of_ascii {l : List Char} (h : IsAsciiSrc l) : byteLen l = l.length := by
  induction l with
  | nil => simp [byteLen_nil]
  | cons c t ih =>
    have hc := csize_eq_one (h c (by simp))
    have ht := ih (fun x hx => h x (by simp [hx]))
    simp only [byteLen_cons, List.length_cons, hc, ht]
    omega

theorem ascii_of_byteLen_le {l : List Char} (h : byteLen l ≤ l.length) : IsAsciiSrc l := by
  induction l with
  | nil => intro c hc; simp at hc
  | cons c t ih =>
    have h1 := length_le_byteLen t
    simp only [byteLen_cons, List.length_cons] at h
    intro x hx
    rcases List.mem_cons.mp hx with rfl | hx'
    · by_contra hbig
      have := two_le_csize hbig
      omega
    · have := csize_pos c
      exact ih (by omega) x hx'

theorem ascii_drop {l : List Char} (h : IsAsciiSrc l) (n : Nat) : IsAsciiSrc (l.drop n) :=
  fun c hc => h c (List.mem_of_mem_drop hc)

/-! ### Byte slicing on ASCII sources -/

theorem dropBytes_ascii : ∀ (l : List Char) (n : Nat), IsAsciiSrc l →
    dropBytes l n = if n ≤ l.length then some (l.drop n) else none
  | l, 0, _ => by simp [dropBytes]
  | [], _ + 1, _ => by simp [dropBytes]
  | c :: t, m + 1, h => by
    have hc := csize_eq_one (h c (by simp))
    have ht := dropBytes_ascii t m (fun x hx => h x (by simp [hx]))
    simp only [dropBytes, hc]
    rw [if_pos (by omega)]
    simp only [Nat.add_sub_cancel, ht, List.length_cons, List.drop_succ_cons]
    by_cases hm : m ≤ t.length
    · rw [if_pos hm, if_pos (by omega)]
    · rw [if_neg hm, if_neg (by omega)]

theorem takeBytes_ascii : ∀ (l : List Char) (n : Nat), IsAsciiSrc l →
    takeBytes l n = if n ≤ l.length then some (l.take n) else none
  | _, 0, _ => by simp [takeBytes]
  | [], _ + 1, _ => by simp [takeBytes]
  | c :: t, m + 1, h => by
    have hc := csize_eq_one (h c (by simp))
    have ht := takeBytes_ascii t m (fun x hx => h x (by simp [hx]))
    simp only [takeBytes, hc]
    rw [if_pos (by omega)]
    simp only [Nat.add_sub_cancel, ht, List.length_cons, List.take_succ_cons]
    by_cases hm : m ≤ t.length
    · rw [if_pos hm, if_pos (by omega)]
      rfl
    · rw [if_neg hm, if_neg (by omega)]
      rfl

theorem byteSlice_ascii {l : List Char} (h : IsAsciiSrc l) {a b : Nat}
    (hab : a ≤ b) (hb : b ≤ l.length) :
    byteSlice l a b = some ((l.drop a).take (b - a)) := by
  unfold byteSlice
  rw [if_pos hab, dropBytes_ascii l a h, if_pos (by omega)]
  simp only [Option.some_bind]
  rw [takeBytes_ascii (l.drop a) (b - a) (ascii_drop h a),
    if_pos (by have := List.length_drop a l; omega)]

end RsLox

namespace RsLox

/-! ### Newline counting -/

theorem nl_nil : nl [] = 0 := rfl

theorem nl_cons (c : Char) (l : List Char) :
    nl (c :: l) = (if c = '\n' then 1 else 0) + nl l := by
  simp only [nl, List.filter_cons]
  by_cases h : c = '\n'
  · simp [h]
    omega
  · simp [h]

theorem nl_append (a b : List Char) : nl (a ++ b) = nl a + nl b := by
  simp [nl, List.filter_append]

theorem nl_take_succ {l : List Char} {n : Nat} {a : Char} (h : l.get? n = some a) :
    nl (l.take (n + 1)) = nl (l.take n) + (if a = '\n' then 1 else 0) := by
  rw [List.take_succ, List.get?_eq_getElem?] at *
  rw [h]
  simp only [Option.toList_some, nl_append, nl_cons, nl_nil]
  omega

theorem nl_eq_zero {l : List Char} (h : '\n' ∉ l) : nl l = 0 := by
  simp only [nl, List.length_eq_zero, List.filter_eq_nil_iff]
  intro a ha hb
  exact h ((beq_iff_eq.mp hb) ▸ ha)

theorem nl_take_eq_zero {l : List Char} (h : '\n' ∉ l) (n : Nat) : nl (l.take n) = 0 :=
  nl_eq_zero (fun hm => h (List.mem_of_mem_take hm))

namespace Scanner

/-! ### Inversion helpers for the primitive operations -/

theorem advance_some {s : Scanner} {p : Char × Scanner} (h : advance s = some p) :
    s.source.get? s.current = some p.1 ∧ p.2 = { s with current := s.current + 1 } := by
  unfold advance at h
  cases hg : s.source.get? s.current with
  | none => rw [hg] at h; cases h
  | some d =>
    rw [hg] at h
    injection h with h1
    subst h1
    exact ⟨rfl, rfl⟩

theorem peek_some {s : Scanner} {c : Char} (h : peek s = some c) :
    (is_at_end s ∧ c = nullChar) ∨ (¬ is_at_end s ∧ s.source.get? s.current = some c) := by
  unfold peek at h
  split at h
  · cases h
    exact Or.inl ⟨by assumption, rfl⟩
  · exact Or.inr ⟨by assumption, h⟩

theorem get?_lt {l : List Char} {n : Nat} {a : Char} (h : l.get? n = some a) : n < l.length :=
  (List.get?_eq_some.mp h).1

theorem not_at_end_ascii {s : Scanner} (hasc : IsAsciiSrc s.source) (h : ¬ is_at_end s) :
    s.current < s.source.length := by
  unfold is_at_end at h
  rw [byteLen_of_ascii hasc] at h
  omega

theorem at_end_ascii {s : Scanner} (hasc : IsAsciiSrc s.source) (h : is_at_end s) :
    s.source.length ≤ s.current := by
  unfold is_at_end at h
  rw [byteLen_of_ascii hasc] at h
  exact h

theorem peek_ascii_some {s : Scanner} (hasc : IsAsciiSrc s.source) :
    peek s ≠ none := by
  unfold peek
  split
  · simp
  · have := not_at_end_ascii hasc (by assumption)
    rw [List.get?_eq_get this]
    simp

end Scanner

end RsLox

namespace RsLox

namespace Scanner

/-! ### Digit-run loop lemmas -/

theorem digits_loop_shape : ∀ (fuel : Nat) (s s' : Scanner),
    digits_loop fuel s = .ok s' →
    s'.source = s.source ∧ s'.tokens = s.tokens ∧ s'.start = s.start ∧ s'.line = s.line ∧
    s.current ≤ s'.current ∧ (s.current ≤ s.source.length → s'.current ≤ s.source.length) ∧
    nl (s.source.take s'.current) = nl (s.source.take s.current)
  | 0, s, s' => by intro h; cases h
  | fuel + 1, s, s' => by
    intro h
    unfold digits_loop at h
    split at h
    · cases h
    · rename_i c hp
      split at h
      · rename_i hd
        split at h
        · rename_i c2 s2 ha
          obtain ⟨hg, hs2⟩ := advance_some ha
          simp only at hg hs2
          subst hs2
          have ih := digits_loop_shape fuel _ s' h
          dsimp only at ih
          have hne : c ≠ '\n' := by
            intro e; rw [e] at hd; exact absurd hd (by decide)
          rcases peek_some hp with ⟨_, rfl⟩ | ⟨_, hgc⟩
          · exact absurd hd (by decide)
          · have hlt := get?_lt hgc
            have hnl : nl (s.source.take (s.current + 1)) = nl (s.source.take s.current) := by
              rw [nl_take_succ hgc, if_neg hne]
              omega
            obtain ⟨i1, i2, i3, i4, i5, i6, i7⟩ := ih
            refine ⟨i1, i2, i3, i4, by omega, fun _ => i6 (by omega), ?_⟩
            rw [i7, hnl]
        · cases h
      · injection h with h1
        subst h1
        exact ⟨rfl, rfl, rfl, rfl, le_refl _, fun h => h, rfl⟩

theorem digits_loop_ne_fuelOut : ∀ (fuel : Nat) (s : Scanner),
    s.source.length - s.current < fuel → digits_loop fuel s ≠ .fuelOut
  | 0, s, hf => by exact absurd hf (by omega)
  | fuel + 1, s, hf => by
    intro h
    unfold digits_loop at h
    split at h
    · cases h
    · rename_i c hp
      split at h
      · split at h
        · rename_i c2 s2 ha
          obtain ⟨hg, hs2⟩ := advance_some ha
          simp only at hg hs2
          subst hs2
          have hlt := get?_lt hg
          refine digits_loop_ne_fuelOut fuel _ ?_ h
          dsimp only
          omega
        · cases h
      · cases h

theorem digits_loop_ne_panic : ∀ (fuel : Nat) (s : Scanner),
    IsAsciiSrc s.source → digits_loop fuel s ≠ .panic
  | 0, s, hasc => by intro h; cases h
  | fuel + 1, s, hasc => by
    intro h
    unfold digits_loop at h
    split at h
    · rename_i hp
      exact peek_ascii_some hasc hp
    · rename_i c hp
      split at h
      · rename_i hd
        split at h
        · rename_i c2 s2 ha
          obtain ⟨hg, hs2⟩ := advance_some ha
          simp only at hg hs2
          subst hs2
          refine digits_loop_ne_panic fuel _ ?_ h
          exact hasc
        · rename_i ha
          rcases peek_some hp with ⟨_, rfl⟩ | ⟨_, hgc⟩
          · exact absurd hd (by decide)
          · unfold advance at ha
            rw [hgc] at ha
            cases ha
      · cases h

theorem digits_loop_ne_err : ∀ (fuel : Nat) (s : Scanner) (e : LoxError),
    digits_loop fuel s ≠ .err e
  | 0, s, e => by intro h; cases h
  | fuel + 1, s, e => by
    intro h
    unfold digits_loop at h
    split at h
    · cases h
    · split at h
      · split at h
        · rename_i c2 s2 ha
          exact digits_loop_ne_err fuel s2 e h
        · cases h
      · cases h

end Scanner

end RsLox

namespace RsLox

namespace Scanner

/-! ### Identifier-continuation loop lemmas -/

theorem ident_loop_shape : ∀ (fuel : Nat) (s s' : Scanner),
    ident_loop fuel s = .ok s' →
    s'.source = s.source ∧ s'.tokens = s.tokens ∧ s'.start = s.start ∧ s'.line = s.line ∧
    s.current ≤ s'.current ∧ (s.current ≤ s.source.length → s'.current ≤ s.source.length) ∧
    nl (s.source.take s'.current) = nl (s.source.take s.current)
  | 0, s, s' => by intro h; cases h
  | fuel + 1, s, s' => by
    intro h
    unfold ident_loop at h
    split at h
    · cases h
    · rename_i c hp
      split at h
      · rename_i hd
        split at h
        · rename_i c2 s2 ha
          obtain ⟨hg, hs2⟩ := advance_some ha
          simp only at hg hs2
          subst hs2
          have ih := ident_loop_shape fuel _ s' h
          dsimp only at ih
          have hne : c ≠ '\n' := by
            intro e; rw [e] at hd; exact absurd hd (by decide)
          rcases peek_some hp with ⟨_, rfl⟩ | ⟨_, hgc⟩
          · exact absurd hd (by decide)
          · have hlt := get?_lt hgc
            have hnl : nl (s.source.take (s.current + 1)) = nl (s.source.take s.current) := by
              rw [nl_take_succ hgc, if_neg hne]
              omega
            obtain ⟨i1, i2, i3, i4, i5, i6, i7⟩ := ih
            refine ⟨i1, i2, i3, i4, by omega, fun _ => i6 (by omega), ?_⟩
            rw [i7, hnl]
        · cases h
      · injection h with h1
        subst h1
        exact ⟨rfl, rfl, rfl, rfl, le_refl _, fun h => h, rfl⟩

theorem ident_loop_ne_fuelOut : ∀ (fuel : Nat) (s : Scanner),
    s.source.length - s.current < fuel → ident_loop fuel s ≠ .fuelOut
  | 0, s, hf => by exact absurd hf (by omega)
  | fuel + 1, s, hf => by
    intro h
    unfold ident_loop at h
    split at h
    · cases h
    · rename_i c hp
      split at h
      · split at h
        · rename_i c2 s2 ha
          obtain ⟨hg, hs2⟩ := advance_some ha
          simp only at hg hs2
          subst hs2
          have hlt := get?_lt hg
          refine ident_loop_ne_fuelOut fuel _ ?_ h
          dsimp only
          omega
        · cases h
      · cases h

theorem ident_loop_ne_panic : ∀ (fuel : Nat) (s : Scanner),
    IsAsciiSrc s.source → ident_loop fuel s ≠ .panic
  | 0, s, hasc => by intro h; cases h
  | fuel + 1, s, hasc => by
    intro h
    unfold ident_loop at h
    split at h
    · rename_i hp
      exact peek_ascii_some hasc hp
    · rename_i c hp
      split at h
      · rename_i hd
        split at h
        · rename_i c2 s2 ha
          obtain ⟨hg, hs2⟩ := advance_some ha
          simp only at hg hs2
          subst hs2
          refine ident_loop_ne_panic fuel _ ?_ h
          exact hasc
        · rename_i ha
          rcases peek_some hp with ⟨_, rfl⟩ | ⟨_, hgc⟩
          · exact absurd hd (by decide)
          · unfold advance at ha
            rw [hgc] at ha
            cases ha
      · cases h

theorem ident_loop_ne_err : ∀ (fuel : Nat) (s : Scanner) (e : LoxError),
    ident_loop fuel s ≠ .err e
  | 0, s, e => by intro h; cases h
  | fuel + 1, s, e => by
    intro h
    unfold ident_loop at h
    split at h
    · cases h
    · split at h
      · split at h
        · rename_i c2 s2 ha
          exact ident_loop_ne_err fuel s2 e h
        · cases h
      · cases h

/-! ### Comment loop lemmas -/

theorem comment_loop_shape : ∀ (fuel : Nat) (s s' : Scanner),
    comment_loop fuel s = .ok s' →
    s'.source = s.source ∧ s'.tokens = s.tokens ∧ s'.start = s.start ∧ s'.line = s.line ∧
    s.current ≤ s'.current ∧ (s.current ≤ s.source.length → s'.current ≤ s.source.length) ∧
    nl (s.source.take s'.current) = nl (s.source.take s.current)
  | 0, s, s' => by intro h; cases h
  | fuel + 1, s, s' => by
    intro h
    unfold comment_loop at h
    split at h
    · cases h
    · rename_i c hp
      split at h
      · rename_i hd
        split at h
        · rename_i c2 s2 ha
          obtain ⟨hg, hs2⟩ := advance_some ha
          simp only at hg hs2
          subst hs2
          have ih := comment_loop_shape fuel _ s' h
          dsimp only at ih
          rcases peek_some hp with ⟨hae, rfl⟩ | ⟨_, hgc⟩
          · exact absurd hae hd.2
          · have hlt := get?_lt hgc
            have hnl : nl (s.source.take (s.current + 1)) = nl (s.source.take s.current) := by
              rw [nl_take_succ hgc, if_neg hd.1]
              omega
            obtain ⟨i1, i2, i3, i4, i5, i6, i7⟩ := ih
            refine ⟨i1, i2, i3, i4, by omega, fun _ => i6 (by omega), ?_⟩
            rw [i7, hnl]
        · cases h
      · injection h with h1
        subst h1
        exact ⟨rfl, rfl, rfl, rfl, le_refl _, fun h => h, rfl⟩

theorem comment_loop_ne_fuelOut : ∀ (fuel : Nat) (s : Scanner),
    s.source.length - s.current < fuel → comment_loop fuel s ≠ .fuelOut
  | 0, s, hf => by exact absurd hf (by omega)
  | fuel + 1, s, hf => by
    intro h
    unfold comment_loop at h
    split at h
    · cases h
    · rename_i c hp
      split at h
      · split at h
        · rename_i c2 s2 ha
          obtain ⟨hg, hs2⟩ := advance_some ha
          simp only at hg hs2
          subst hs2
          have hlt := get?_lt hg
          refine comment_loop_ne_fuelOut fuel _ ?_ h
          dsimp only
          omega
        · cases h
      · cases h

theorem comment_loop_ne_panic : ∀ (fuel : Nat) (s : Scanner),
    IsAsciiSrc s.source → comment_loop fuel s ≠ .panic
  | 0, s, hasc => by intro h; cases h
  | fuel + 1, s, hasc => by
    intro h
    unfold comment_loop at h
    split at h
    · rename_i hp
      exact peek_ascii_some hasc hp
    · rename_i c hp
      split at h
      · rename_i hd
        split at h
        · rename_i c2 s2 ha
          obtain ⟨hg, hs2⟩ := advance_some ha
          simp only at hg hs2
          subst hs2
          refine comment_loop_ne_panic fuel _ ?_ h
          exact hasc
        · rename_i ha
          rcases peek_some hp with ⟨hae, rfl⟩ | ⟨_, hgc⟩
          · exact absurd hae hd.2
          · unfold advance at ha
            rw [hgc] at ha
            cases ha
      · cases h

theorem comment_loop_ne_err : ∀ (fuel : Nat) (s : Scanner) (e : LoxError),
    comment_loop fuel s ≠ .err e
  | 0, s, e => by intro h; cases h
  | fuel + 1, s, e => by
    intro h
    unfold comment_loop at h
    split at h
    · cases h
    · split at h
      · split at h
        · rename_i c2 s2 ha
          exact comment_loop_ne_err fuel s2 e h
        · cases h
      · cases h

end Scanner

end RsLox

namespace RsLox

namespace Scanner

/-! ### String-body loop lemmas -/

theorem peek_at_end {s : Scanner} (h : is_at_end s) : peek s = some nullChar := by
  unfold peek
  rw [if_pos h]

theorem peek_not_at_end {s : Scanner} (h : ¬ is_at_end s) :
    peek s = s.source.get? s.current := by
  unfold peek
  rw [if_neg h]

theorem advance_none {s : Scanner} (h : advance s = none) :
    s.source.get? s.current = none := by
  unfold advance at h
  cases hg : s.source.get? s.current with
  | none => rfl
  | some d => rw [hg] at h; cases h

theorem string_loop_shape : ∀ (fuel : Nat) (s s' : Scanner),
    string_loop fuel s = .ok s' →
    s'.source = s.source ∧ s'.tokens = s.tokens ∧ s'.start = s.start ∧
    s.current ≤ s'.current ∧ (s.current ≤ s.source.length → s'.current ≤ s.source.length) ∧
    s'.line + nl (s.source.take s.current) = s.line + nl (s.source.take s'.current) ∧
    (is_at_end s' ∨ s'.source.get? s'.current = some '"')
  | 0, s, s' => by intro h; cases h
  | fuel + 1, s, s' => by
    intro h
    unfold string_loop at h
    split at h
    · cases h
    · rename_i c hp
      split at h
      · rename_i hd
        split at h
        · rename_i c2 s2 ha
          obtain ⟨hg, hs2⟩ := advance_some ha
          rcases peek_some hp with ⟨hae, rfl⟩ | ⟨_, hgc⟩
          · exact absurd hae hd.2
          · by_cases hnl : c = '\n'
            · rw [if_pos hnl] at hg hs2
              simp only at hg hs2
              subst hs2
              have ih := string_loop_shape fuel _ s' h
              dsimp only at ih
              have hlt := get?_lt hgc
              have hstep : nl (s.source.take (s.current + 1)) =
                  nl (s.source.take s.current) + 1 := by
                rw [nl_take_succ hgc, if_pos hnl]
              obtain ⟨i1, i2, i3, i4, i5, i6, i7⟩ := ih
              refine ⟨i1, i2, i3, by omega, fun _ => i5 (by omega), by omega, i7⟩
            · rw [if_neg hnl] at hg hs2
              simp only at hg hs2
              subst hs2
              have ih := string_loop_shape fuel _ s' h
              dsimp only at ih
              have hlt := get?_lt hgc
              have hstep : nl (s.source.take (s.current + 1)) =
                  nl (s.source.take s.current) := by
                rw [nl_take_succ hgc, if_neg hnl]
                omega
              obtain ⟨i1, i2, i3, i4, i5, i6, i7⟩ := ih
              refine ⟨i1, i2, i3, by omega, fun _ => i5 (by omega), by omega, i7⟩
        · cases h
      · rename_i hcond
        injection h with h1
        subst h1
        refine ⟨rfl, rfl, rfl, le_refl _, fun h => h, by omega, ?_⟩
        by_cases hae : is_at_end s
        · exact Or.inl hae
        · have hq : c = '"' := by
            by_contra hne
            exact hcond ⟨hne, hae⟩
          rcases peek_some hp with ⟨hae', _⟩ | ⟨_, hgc⟩
          · exact absurd hae' hae
          · exact Or.inr (hq ▸ hgc)

theorem string_loop_ne_fuelOut : ∀ (fuel : Nat) (s : Scanner),
    s.source.length - s.current < fuel → string_loop fuel s ≠ .fuelOut
  | 0, s, hf => by exact absurd hf (by omega)
  | fuel + 1, s, hf => by
    intro h
    unfold string_loop at h
    split at h
    · cases h
    · rename_i c hp
      split at h
      · split at h
        · rename_i c2 s2 ha
          obtain ⟨hg, hs2⟩ := advance_some ha
          by_cases hnl : c = '\n'
          · rw [if_pos hnl] at hg hs2
            simp only at hg hs2
            subst hs2
            have hlt := get?_lt hg
            refine string_loop_ne_fuelOut fuel _ ?_ h
            dsimp only
            omega
          · rw [if_neg hnl] at hg hs2
            simp only at hg hs2
            subst hs2
            have hlt := get?_lt hg
            refine string_loop_ne_fuelOut fuel _ ?_ h
            dsimp only
            omega
        · cases h
      · cases h

theorem string_loop_ne_panic : ∀ (fuel : Nat) (s : Scanner),
    IsAsciiSrc s.source → string_loop fuel s ≠ .panic
  | 0, s, hasc => by intro h; cases h
  | fuel + 1, s, hasc => by
    intro h
    unfold string_loop at h
    split at h
    · rename_i hp
      exact peek_ascii_some hasc hp
    · rename_i c hp
      split at h
      · rename_i hd
        split at h
        · rename_i c2 s2 ha
          obtain ⟨hg, hs2⟩ := advance_some ha
          by_cases hnl : c = '\n'
          · rw [if_pos hnl] at hg hs2
            simp only at hg hs2
            subst hs2
            refine string_loop_ne_panic fuel _ ?_ h
            exact hasc
          · rw [if_neg hnl] at hg hs2
            simp only at hg hs2
            subst hs2
            refine string_loop_ne_panic fuel _ ?_ h
            exact hasc
        · rename_i ha
          rcases peek_some hp with ⟨hae, rfl⟩ | ⟨_, hgc⟩
          · exact absurd hae hd.2
          · have hn := advance_none ha
            by_cases hnl : c = '\n'
            · rw [if_pos hnl] at hn
              dsimp only at hn
              rw [hgc] at hn
              cases hn
            · rw [if_neg hnl] at hn
              rw [hgc] at hn
              cases hn
      · cases h

theorem string_loop_ne_err : ∀ (fuel : Nat) (s : Scanner) (e : LoxError),
    string_loop fuel s ≠ .err e
  | 0, s, e => by intro h; cases h
  | fuel + 1, s, e => by
    intro h
    unfold string_loop at h
    split at h
    · cases h
    · split at h
      · split at h
        · rename_i c2 s2 ha
          exact string_loop_ne_err fuel s2 e h
        · cases h
      · cases h

/-- When no closing quote remains, the string-body loop consumes everything to
the end of the (ASCII) source, counting every newline it crosses. -/
theorem string_loop_unterminated : ∀ (fuel : Nat) (s : Scanner),
    IsAsciiSrc s.source → s.current ≤ s.source.length →
    '"' ∉ s.source.drop s.current →
    s.source.length - s.current < fuel →
    string_loop fuel s =
      .ok { s with current := s.source.length,
                   line := s.line + nl (s.source.drop s.current) }
  | 0, s, _, _, _, hf => by exact absurd hf (by omega)
  | fuel + 1, s, hasc, hle, hq, hf => by
    unfold string_loop
    by_cases hend : s.current = s.source.length
    · have hae : is_at_end s := by
        unfold is_at_end
        rw [byteLen_of_ascii hasc]
        omega
      rw [peek_at_end hae]
      dsimp only
      rw [if_neg (by intro hcond; exact hcond.2 hae)]
      have hdr : s.source.drop s.current = [] := by
        rw [List.drop_eq_nil_iff_le]
        omega
      rw [hdr]
      simp only [nl_nil, Nat.add_zero]
      rw [← hend]
    · have hlt : s.current < s.source.length := by omega
      have hae : ¬ is_at_end s := by
        unfold is_at_end
        rw [byteLen_of_ascii hasc]
        omega
      rw [peek_not_at_end hae]
      obtain ⟨c, hgc⟩ : ∃ c, s.source.get? s.current = some c := by
        rw [List.get?_eq_get hlt]
        exact ⟨_, rfl⟩
      rw [hgc]
      dsimp only
      have hdropc : s.source.drop s.current = c :: s.source.drop (s.current + 1) := by
        rw [List.drop_eq_get_cons hlt]
        congr 1
        rw [List.get?_eq_get hlt] at hgc
        injection hgc
      have hcq : c ≠ '"' := by
        intro e
        exact hq (by rw [hdropc, e]; exact List.mem_cons_self _ _)
      rw [if_pos ⟨hcq, hae⟩]
      have hq' : '"' ∉ s.source.drop (s.current + 1) := by
        intro hm
        exact hq (by rw [hdropc]; exact List.mem_cons_of_mem _ hm)
      by_cases hnl : c = '\n'
      · rw [if_pos hnl]
        have hadv : advance { s with line := s.line + 1 } =
            some (c, { s with current := s.current + 1, line := s.line + 1 }) := by
          unfold advance
          dsimp only
          rw [hgc]
        rw [hadv]
        dsimp only
        have ih := string_loop_unterminated fuel
          { s with current := s.current + 1, line := s.line + 1 }
          hasc (by dsimp only; omega) (by dsimp only; exact hq') (by dsimp only; omega)
        dsimp only at ih
        rw [ih, hdropc, nl_cons, if_pos hnl]
        simp only [ScanResult.ok.injEq, Scanner.mk.injEq, true_and, and_true]
        omega
      · rw [if_neg hnl]
        have hadv : advance s = some (c, { s with current := s.current + 1 }) := by
          unfold advance
          rw [hgc]
        rw [hadv]
        dsimp only
        have ih := string_loop_unterminated fuel
          { s with current := s.current + 1 }
          hasc (by dsimp only; omega) (by dsimp only; exact hq') (by dsimp only; omega)
        dsimp only at ih
        rw [ih, hdropc, nl_cons, if_neg hnl]
        simp only [ScanResult.ok.injEq, Scanner.mk.injEq, true_and, and_true]
        omega

end Scanner

end RsLox

namespace RsLox

/-! ### List helpers -/

theorem takeWhile_all_self {p : Char → Bool} : ∀ {a : List Char},
    (∀ c ∈ a, p c = true) → a.takeWhile p = a
  | [], _ => rfl
  | c :: a, h => by
    rw [List.takeWhile_cons_of_pos (h c (by simp))]
    rw [takeWhile_all_self (fun x hx => h x (by simp [hx]))]

theorem takeWhile_all_append {p : Char → Bool} : ∀ {a : List Char} (r : List Char),
    (∀ c ∈ a, p c = true) → (a ++ r).takeWhile p = a ++ r.takeWhile p
  | [], r, _ => rfl
  | c :: a, r, h => by
    rw [List.cons_append, List.takeWhile_cons_of_pos (h c (by simp))]
    rw [takeWhile_all_append r (fun x hx => h x (by simp [hx]))]
    simp

theorem dropWhile_head_false {p : Char → Bool} {l : List Char} {c : Char} {r : List Char}
    (h : l.dropWhile p = c :: r) : p c = false := by
  have := List.head?_dropWhile_not p l
  rw [h] at this
  simpa using this

theorem drop_eq_cons_of_get? {l : List Char} {n : Nat} {a : Char}
    (h : l.get? n = some a) : l.drop n = a :: l.drop (n + 1) := by
  have hlt := (List.get?_eq_some.mp h).1
  rw [List.drop_eq_get_cons hlt]
  congr 1
  rw [List.get?_eq_get hlt] at h
  injection h

theorem takeWhile_eq_take {p : Char → Bool} (l : List Char) :
    l.takeWhile p = l.take (l.takeWhile p).length :=
  List.prefix_iff_eq_take.mp (List.takeWhile_prefix p)

theorem length_takeWhile {p : Char → Bool} (l : List Char) :
    (l.takeWhile p).length ≤ l.length :=
  List.Sublist.length_le (List.takeWhile_sublist p)

/-! ### The `f64::from_str` grammar accepts the scanner's number lexemes -/

namespace Scanner

theorem strip_sign_digit {c : Char} {r : List Char} (h : c.isDigit = true) :
    strip_sign (c :: r) = c :: r := by
  show (if c = '+' ∨ c = '-' then r else c :: r) = c :: r
  rw [if_neg]
  rintro (rfl | rfl) <;> exact absurd h (by decide)

theorem f64_ok_digits {a : List Char} (hne : a ≠ [])
    (hdig : ∀ c ∈ a, c.isDigit = true) : f64_parse_ok a = true := by
  obtain ⟨c, a', rfl⟩ : ∃ c a', a = c :: a' := by
    cases a with
    | nil => exact absurd rfl hne
    | cons c a' => exact ⟨c, a', rfl⟩
  unfold f64_parse_ok
  rw [strip_sign_digit (hdig c (by simp))]
  have htw : (c :: a').takeWhile Char.isDigit = c :: a' := takeWhile_all_self hdig
  rw [Bool.or_eq_true]
  refine Or.inr ?_
  unfold mantissa_exp_ok
  rw [htw, List.drop_length]
  simp

theorem f64_ok_digits_dot {a f : List Char} (hne : a ≠ [])
    (hdiga : ∀ c ∈ a, c.isDigit = true) (hdigf : ∀ c ∈ f, c.isDigit = true) :
    f64_parse_ok (a ++ '.' :: f) = true := by
  obtain ⟨c, a', rfl⟩ : ∃ c a', a = c :: a' := by
    cases a with
    | nil => exact absurd rfl hne
    | cons c a' => exact ⟨c, a', rfl⟩
  unfold f64_parse_ok
  rw [List.cons_append, strip_sign_digit (hdiga c (by simp)), ← List.cons_append]
  rw [Bool.or_eq_true]
  refine Or.inr ?_
  have htw : ((c :: a') ++ '.' :: f).takeWhile Char.isDigit = (c :: a') ++ ('.' :: f).takeWhile Char.isDigit :=
    takeWhile_all_append _ hdiga
  rw [List.takeWhile_cons_of_neg (by decide)] at htw
  rw [List.append_nil] at htw
  unfold mantissa_exp_ok
  rw [htw, List.drop_left]
  dsimp only
  rw [if_pos rfl]
  have htwf : f.takeWhile Char.isDigit = f := takeWhile_all_self hdigf
  rw [htwf, List.drop_length]
  simp [exp_ok]

/-! ### Characterization of a digit run -/

theorem digits_loop_char : ∀ (fuel : Nat) (s : Scanner),
    IsAsciiSrc s.source → s.current ≤ s.source.length →
    s.source.length - s.current < fuel →
    digits_loop fuel s =
      .ok { s with current := s.current + ((s.source.drop s.current).takeWhile Char.isDigit).length }
  | 0, s, _, _, hf => by exact absurd hf (by omega)
  | fuel + 1, s, hasc, hle, hf => by
    unfold digits_loop
    by_cases hend : s.current = s.source.length
    · have hae : is_at_end s := by
        unfold is_at_end
        rw [byteLen_of_ascii hasc]
        omega
      rw [peek_at_end hae]
      dsimp only
      rw [if_neg (by decide)]
      have hdr : s.source.drop s.current = [] := by
        rw [List.drop_eq_nil_iff]
        omega
      rw [hdr]
      simp only [List.takeWhile_nil, List.length_nil, Nat.add_zero]
    · have hlt : s.current < s.source.length := by omega
      have hae : ¬ is_at_end s := by
        unfold is_at_end
        rw [byteLen_of_ascii hasc]
        omega
      rw [peek_not_at_end hae]
      obtain ⟨c, hgc⟩ : ∃ c, s.source.get? s.current = some c := by
        rw [List.get?_eq_get hlt]
        exact ⟨_, rfl⟩
      rw [hgc]
      dsimp only
      have hdropc := drop_eq_cons_of_get? hgc
      by_cases hd : c.isDigit = true
      · rw [if_pos hd]
        have hadv : advance s = some (c, { s with current := s.current + 1 }) := by
          unfold advance
          rw [hgc]
        rw [hadv]
        dsimp only
        have ih := digits_loop_char fuel { s with current := s.current + 1 }
          hasc (by dsimp only; omega) (by dsimp only; omega)
        dsimp only at ih
        rw [ih, hdropc, List.takeWhile_cons_of_pos hd]
        simp only [ScanResult.ok.injEq, Scanner.mk.injEq, true_and, and_true]
        simp only [List.length_cons]
        omega
      · rw [if_neg hd]
        rw [hdropc, List.takeWhile_cons_of_neg (by simpa using hd)]
        simp only [List.length_nil, Nat.add_zero]

end Scanner

end RsLox

namespace RsLox

namespace Scanner

/-! ### Token-emission helpers -/

theorem add_token_eq {s : Scanner} (k : TokenType)
    (hasc : IsAsciiSrc s.source) (h1 : s.start ≤ s.current) (h2 : s.current ≤ s.source.length) :
    add_token s k = .ok { s with tokens := s.tokens ++
      [{ token_type := k, lexeme := (s.source.drop s.start).take (s.current - s.start),
         literal := none, line := s.line }] } := by
  unfold add_token
  rw [byteSlice_ascii hasc h1 h2]

theorem add_token_literal_eq {s : Scanner} (k : TokenType) (lit : Literal)
    (hasc : IsAsciiSrc s.source) (h1 : s.start ≤ s.current) (h2 : s.current ≤ s.source.length) :
    add_token_literal s k lit = .ok { s with tokens := s.tokens ++
      [{ token_type := k, lexeme := (s.source.drop s.start).take (s.current - s.start),
         literal := some lit, line := s.line }] } := by
  unfold add_token_literal
  rw [byteSlice_ascii hasc h1 h2]

theorem keyword_ne_eof (text : List Char) : keyword text ≠ .Eof := by
  unfold keyword
  by_cases h0 : text = "and".toList
  · rw [if_pos h0]; decide
  · rw [if_neg h0]
    by_cases h1 : text = "class".toList
    · rw [if_pos h1]; decide
    · rw [if_neg h1]
      by_cases h2 : text = "else".toList
      · rw [if_pos h2]; decide
      · rw [if_neg h2]
        by_cases h3 : text = "false".toList
        · rw [if_pos h3]; decide
        · rw [if_neg h3]
          by_cases h4 : text = "for".toList
          · rw [if_pos h4]; decide
          · rw [if_neg h4]
            by_cases h5 : text = "fun".toList
            · rw [if_pos h5]; decide
            · rw [if_neg h5]
              by_cases h6 : text = "if".toList
              · rw [if_pos h6]; decide
              · rw [if_neg h6]
                by_cases h7 : text = "nil".toList
                · rw [if_pos h7]; decide
                · rw [if_neg h7]
                  by_cases h8 : text = "or".toList
                  · rw [if_pos h8]; decide
                  · rw [if_neg h8]
                    by_cases h9 : text = "print".toList
                    · rw [if_pos h9]; decide
                    · rw [if_neg h9]
                      by_cases h10 : text = "return".toList
                      · rw [if_pos h10]; decide
                      · rw [if_neg h10]
                        by_cases h11 : text = "super".toList
                        · rw [if_pos h11]; decide
                        · rw [if_neg h11]
                          by_cases h12 : text = "this".toList
                          · rw [if_pos h12]; decide
                          · rw [if_neg h12]
                            by_cases h13 : text = "true".toList
                            · rw [if_pos h13]; decide
                            · rw [if_neg h13]
                              by_cases h14 : text = "var".toList
                              · rw [if_pos h14]; decide
                              · rw [if_neg h14]
                                by_cases h15 : text = "while".toList
                                · rw [if_pos h15]; decide
                                · rw [if_neg h15]
                                  decide

/-! ### Inversion of `identifier` (the identifier/keyword arm) -/

theorem identifier_inv {s s' : Scanner}
    (hasc : IsAsciiSrc s.source) (hst : s.start + 1 = s.current)
    (hle : s.current ≤ s.source.length)
    (h : identifier s = .ok s') :
    s'.source = s.source ∧ s'.start = s.start ∧ s'.line = s.line ∧
    s.current ≤ s'.current ∧ s'.current ≤ s.source.length ∧
    nl (s.source.take s'.current) = nl (s.source.take s.current) ∧
    ∃ t, s'.tokens = s.tokens ++ [t] ∧
      t.lexeme = (s.source.drop s.start).take (s'.current - s.start) ∧
      t.line = s.line ∧ t.token_type ≠ .Eof := by
  unfold identifier at h
  split at h
  · rename_i s1 hl
    obtain ⟨i1, i2, i3, i4, i5, i6, i7⟩ := ident_loop_shape _ _ _ hl
    split at h
    · rename_i text hbs
      rw [add_token_eq (keyword text) (by rw [i1]; exact hasc)
        (by rw [i3]; omega) (by rw [i1]; exact i6 hle)] at h
      injection h with h1
      subst h1
      dsimp only
      refine ⟨i1, i3, i4, by omega, i6 hle, i7, ?_⟩
      refine ⟨_, by rw [i2], ?_, by rw [i4], keyword_ne_eof text⟩
      dsimp only
      rw [i1, i3]
    · rename_i hbs
      rw [i1, i3, byteSlice_ascii hasc (by omega) (i6 hle)] at hbs
      cases hbs
  · rename_i hne
    exact absurd h (fun hh => hne _ hh)

/-! ### Inversion of `string` -/

theorem string_inv {s s' : Scanner}
    (hasc : IsAsciiSrc s.source) (hst : s.start + 1 = s.current)
    (hle : s.current ≤ s.source.length)
    (h : string s = .ok s') :
    s'.source = s.source ∧ s'.start = s.start ∧
    s.current ≤ s'.current ∧ s'.current ≤ s.source.length ∧
    s'.line + nl (s.source.take s.current) = s.line + nl (s.source.take s'.current) ∧
    ∃ t, s'.tokens = s.tokens ++ [t] ∧
      t.lexeme = (s.source.drop s.start).take (s'.current - s.start) ∧
      t.line = s'.line ∧ t.token_type = .String := by
  unfold string at h
  split at h
  · rename_i s1 hl
    obtain ⟨i1, i2, i3, i4, i5, i6, i7⟩ := string_loop_shape _ _ _ hl
    split at h
    · cases h
    · rename_i hae
      rcases i7 with hae' | hq
      · exact absurd hae' hae
      split at h
      · rename_i c2 s2 ha
        obtain ⟨hg, hs2⟩ := advance_some ha
        simp only at hg hs2
        subst hs2
        have hqlt : s1.current < s1.source.length := get?_lt hq
        split at h
        · rename_i value hbs
          rw [add_token_literal_eq .String (.String value)
            (by dsimp only; rw [i1]; exact hasc)
            (by dsimp only; rw [i3]; omega)
            (by dsimp only; rw [i1]; rw [i1] at hqlt; omega)] at h
          injection h with h1
          subst h1
          dsimp only
          have hq' : s.source.get? s1.current = some '"' := by rw [← i1]; exact hq
          have hnlq : nl (s.source.take (s1.current + 1)) = nl (s.source.take s1.current) := by
            rw [nl_take_succ hq', if_neg (by decide)]
            omega
          rw [i1] at hqlt
          refine ⟨i1, i3, by omega, by omega, by omega, ?_⟩
          refine ⟨_, by rw [i2], ?_, rfl, rfl⟩
          dsimp only
          rw [i1, i3]
        · rename_i hbs
          dsimp only at hbs
          rw [i1] at hqlt
          rw [i1, i3, Nat.add_sub_cancel,
            byteSlice_ascii hasc (by omega) (by omega)] at hbs
          cases hbs
      · rename_i ha
        have := advance_none ha
        rw [this] at hq
        cases hq
  · rename_i hne
    exact absurd h (fun hh => hne _ hh)

end Scanner

end RsLox

namespace RsLox

theorem dropWhile_eq_drop {p : Char → Bool} : ∀ (l : List Char),
    l.dropWhile p = l.drop (l.takeWhile p).length
  | [] => rfl
  | c :: t => by
    by_cases hc : p c = true
    · rw [List.dropWhile_cons_of_pos hc, List.takeWhile_cons_of_pos hc]
      simpa using dropWhile_eq_drop t
    · rw [List.dropWhile_cons_of_neg hc, List.takeWhile_cons_of_neg hc]
      simp

namespace Scanner

/-! ### Full characterization of `number` -/

theorem number_spec {s : Scanner} {d : Char} (tw1 tw2 : List Char) (p : Nat)
    (hasc : IsAsciiSrc s.source) (hst : s.start + 1 = s.current)
    (hle : s.current ≤ s.source.length)
    (hd0 : s.source.get? s.start = some d) (hdd : d.isDigit = true)
    (htw1 : tw1 = (s.source.drop s.current).takeWhile Char.isDigit)
    (hp : p = s.current + tw1.length)
    (htw2 : tw2 = (s.source.drop (p + 1)).takeWhile Char.isDigit) :
    (∀ x ∈ tw1, x.isDigit = true) ∧ (∀ x ∈ tw2, x.isDigit = true) ∧
    ((s.source.drop s.start).take (p - s.start) = d :: tw1) ∧
    (s.source.get? p = some '.' →
      (s.source.drop s.start).take (p + 1 + tw2.length - s.start) = d :: tw1 ++ '.' :: tw2) ∧
    (¬ (s.source.get? p = some '.' ∧ ∃ e, s.source.get? (p + 1) = some e ∧ e.isDigit = true) →
      number s = .ok { s with
        current := p,
        tokens := s.tokens ++
          [⟨.Number, d :: tw1, some (.Number (d :: tw1)), s.line⟩] }) ∧
    (s.source.get? p = some '.' → ∀ e, s.source.get? (p + 1) = some e → e.isDigit = true →
      number s = .ok { s with
        current := p + 1 + tw2.length,
        tokens := s.tokens ++
          [⟨.Number, d :: tw1 ++ '.' :: tw2, some (.Number (d :: tw1 ++ '.' :: tw2)), s.line⟩] }) := by
  have hlen1 : tw1.length ≤ s.source.length - s.current := by
    rw [htw1]
    have h1 := length_takeWhile (p := Char.isDigit) (s.source.drop s.current)
    rw [List.length_drop] at h1
    exact h1
  have hple : p ≤ s.source.length := by omega
  have hs0 : s.start < s.current := by omega
  have hdig1 : ∀ c ∈ tw1, c.isDigit = true := by
    rw [htw1]
    exact fun c hc => List.mem_takeWhile_imp hc
  have hdig2 : ∀ c ∈ tw2, c.isDigit = true := by
    rw [htw2]
    exact fun c hc => List.mem_takeWhile_imp hc
  have hlen2 : tw2.length ≤ s.source.length - (p + 1) := by
    rw [htw2]
    have h2 := length_takeWhile (p := Char.isDigit) (s.source.drop (p + 1))
    rw [List.length_drop] at h2
    exact h2
  have htake2 : (s.source.drop (p + 1)).take tw2.length = tw2 := by
    rw [htw2]
    exact (takeWhile_eq_take _).symm
  have hdstart : s.source.drop s.start = d :: s.source.drop s.current := by
    have h1 := drop_eq_cons_of_get? hd0
    rw [hst] at h1
    exact h1
  have htake1 : (s.source.drop s.current).take tw1.length = tw1 := by
    rw [htw1]
    exact (takeWhile_eq_take _).symm
  have hlex1 : (s.source.drop s.start).take (p - s.start) = d :: tw1 := by
    rw [hdstart]
    have he : p - s.start = tw1.length + 1 := by omega
    rw [he, List.take_succ_cons, htake1]
  have hdw : (s.source.drop s.current).dropWhile Char.isDigit = s.source.drop p := by
    rw [dropWhile_eq_drop, ← htw1, List.drop_drop, hp, Nat.add_comm]
  have hsplit : s.source.drop s.current = tw1 ++ s.source.drop p := by
    conv_lhs => rw [← List.takeWhile_append_dropWhile (p := Char.isDigit)
      (l := s.source.drop s.current)]
    rw [hdw, htw1]
  have hlex2c : s.source.get? p = some '.' →
      (s.source.drop s.start).take (p + 1 + tw2.length - s.start) =
        d :: tw1 ++ '.' :: tw2 := by
    intro hgpd
    have hdroppd : s.source.drop p = '.' :: s.source.drop (p + 1) :=
      drop_eq_cons_of_get? hgpd
    rw [hdstart]
    have he : p + 1 + tw2.length - s.start = (tw1.length + (tw2.length + 1)) + 1 := by
      omega
    rw [he, List.take_succ_cons, hsplit, hdroppd]
    rw [← htake1]
    rw [List.take_append, htake1]
    rw [List.take_succ_cons, htake2]
    simp
  have hchar1 := digits_loop_char (s.source.length + 1) s hasc hle (by omega)
  rw [← htw1, ← hp] at hchar1
  -- `number` runs the first digit loop, reaching position `p`.
  have hnum0 : number s =
      (match peek { s with current := p } with
        | none => ScanResult.panic
        | some c =>
          if c = '.' then
            match peek_next { s with current := p } with
            | none => ScanResult.panic
            | some c2 =>
              if c2.isDigit then
                match advance { s with current := p } with
                | some (_, s2) =>
                  match digits_loop (s2.source.length + 1) s2 with
                  | .ok s3 => finish_number s3
                  | r => r
                | none => ScanResult.panic
              else finish_number { s with current := p }
          else finish_number { s with current := p }) := by
    unfold number
    rw [hchar1]
  -- the value of `finish_number` at position `p`
  have hfin1 : finish_number { s with current := p } =
      .ok { s with
        current := p,
        tokens := s.tokens ++
          [⟨.Number, d :: tw1, some (.Number (d :: tw1)), s.line⟩] } := by
    unfold finish_number
    dsimp only
    rw [byteSlice_ascii hasc (by omega) hple, hlex1]
    dsimp only
    rw [if_pos (f64_ok_digits (by simp) (by
      intro c hc
      rcases List.mem_cons.mp hc with rfl | hc'
      · exact hdd
      · exact hdig1 c hc'))]
    rw [add_token_literal_eq .Number (.Number (d :: tw1)) (by exact hasc)
      (by dsimp only; omega) (by exact hple)]
    dsimp only
    rw [hlex1]
  by_cases hpend : p = s.source.length
  · -- the digit run reaches the end of the source: no dot lookahead is possible
    have hae : is_at_end { s with current := p } := by
      show byteLen s.source ≤ p
      rw [byteLen_of_ascii hasc]
      omega
    rw [peek_at_end hae] at hnum0
    dsimp only at hnum0
    rw [if_neg (by decide)] at hnum0
    refine ⟨hdig1, hdig2, hlex1, hlex2c, ?_, ?_⟩
    · intro _
      rw [hnum0, hfin1]
    · intro hdot
      have := get?_lt hdot
      omega
  · -- a character follows the digit run
    have hplt : p < s.source.length := by omega
    have hnae : ¬ is_at_end { s with current := p } := by
      show ¬ byteLen s.source ≤ p
      rw [byteLen_of_ascii hasc]
      omega
    rw [peek_not_at_end hnae] at hnum0
    dsimp only at hnum0
    obtain ⟨cp, hgp⟩ : ∃ cp, s.source.get? p = some cp := by
      rw [List.get?_eq_get hplt]
      exact ⟨_, rfl⟩
    rw [hgp] at hnum0
    dsimp only at hnum0
    have hdropp : s.source.drop p = cp :: s.source.drop (p + 1) := drop_eq_cons_of_get? hgp
    have hcpnd : cp.isDigit = false := by
      apply dropWhile_head_false (l := s.source.drop s.current)
      rw [hdw, hdropp]
    by_cases hcp : cp = '.'
    · -- the character after the run is a dot: two-character lookahead
      subst hcp
      rw [if_pos rfl] at hnum0
      by_cases hp1 : s.source.length ≤ p + 1
      · -- the dot is the final character: `peek_next` sees end of input
        have : peek_next { s with current := p } = some nullChar := by
          unfold peek_next
          rw [if_pos (by dsimp only; rw [byteLen_of_ascii hasc]; omega)]
        rw [this] at hnum0
        dsimp only at hnum0
        rw [if_neg (by decide)] at hnum0
        refine ⟨hdig1, hdig2, hlex1, hlex2c, ?_, ?_⟩
        · intro _
          rw [hnum0, hfin1]
        · intro _ e hge _
          have := get?_lt hge
          omega
      · -- a character follows the dot
        have hp1lt : p + 1 < s.source.length := by omega
        obtain ⟨e2, hge2⟩ : ∃ e2, s.source.get? (p + 1) = some e2 := by
          rw [List.get?_eq_get hp1lt]
          exact ⟨_, rfl⟩
        have hpn : peek_next { s with current := p } = some e2 := by
          unfold peek_next
          rw [if_neg (by dsimp only; rw [byteLen_of_ascii hasc]; omega)]
          exact hge2
        rw [hpn] at hnum0
        dsimp only at hnum0
        by_cases he2 : e2.isDigit = true
        · -- dot followed by a digit: consume the dot and the fractional run
          rw [if_pos he2] at hnum0
          have hadv : advance { s with current := p } =
              some ('.', { s with current := p + 1 }) := by
            unfold advance
            dsimp only
            rw [hgp]
          rw [hadv] at hnum0
          dsimp only at hnum0
          have hchar2 := digits_loop_char (s.source.length + 1) { s with current := p + 1 }
            hasc (by dsimp only; omega) (by dsimp only; omega)
          dsimp only at hchar2
          rw [← htw2] at hchar2
          rw [hchar2] at hnum0
          dsimp only at hnum0
          have hlex2 := hlex2c hgp
          have hfin2 : finish_number { s with current := p + 1 + tw2.length } =
              .ok { s with
                current := p + 1 + tw2.length,
                tokens := s.tokens ++
                  [⟨.Number, d :: tw1 ++ '.' :: tw2,
                    some (.Number (d :: tw1 ++ '.' :: tw2)), s.line⟩] } := by
            unfold finish_number
            dsimp only
            rw [byteSlice_ascii hasc (by omega) (by omega), hlex2]
            dsimp only
            rw [if_pos (f64_ok_digits_dot (by simp) (by
              intro c hc
              rcases List.mem_cons.mp hc with rfl | hc'
              · exact hdd
              · exact hdig1 c hc') hdig2)]
            rw [add_token_literal_eq .Number (.Number (d :: tw1 ++ '.' :: tw2))
              (by exact hasc) (by dsimp only; omega) (by dsimp only; omega)]
            dsimp only
            rw [hlex2]
          refine ⟨hdig1, hdig2, hlex1, hlex2c, ?_, ?_⟩
          · intro hni
            exact absurd ⟨hgp, e2, hge2, he2⟩ hni
          · intro _ e hge _
            rw [hnum0, hfin2]
        · -- dot not followed by a digit: the dot is not consumed
          rw [if_neg he2] at hnum0
          refine ⟨hdig1, hdig2, hlex1, hlex2c, ?_, ?_⟩
          · intro _
            rw [hnum0, hfin1]
          · intro _ e hge he
            rw [hge2] at hge
            injection hge with hge
            rw [← hge] at he
            exact absurd he he2
    · -- the character after the run is not a dot
      rw [if_neg hcp] at hnum0
      refine ⟨hdig1, hdig2, hlex1, hlex2c, ?_, ?_⟩
      · intro _
        rw [hnum0, hfin1]
      · intro hdot
        rw [hgp] at hdot
        injection hdot with hdot
        exact absurd hdot hcp

end Scanner

end RsLox

namespace RsLox

namespace Scanner

/-! ### `scan_token` inversion: invariant and arm handlers -/

theorem match_char_none {s : Scanner} (arg : Char)
    (h : s.source.get? s.current = none) : match_char s arg = (false, s) := by
  unfold match_char
  rw [h]

theorem match_char_hit {s : Scanner} {arg c : Char}
    (h : s.source.get? s.current = some c) (he : c = arg) :
    match_char s arg = (true, { s with current := s.current + 1 }) := by
  unfold match_char
  rw [h]
  dsimp only
  rw [if_pos he]

theorem match_char_miss {s : Scanner} {arg c : Char}
    (h : s.source.get? s.current = some c) (he : c ≠ arg) :
    match_char s arg = (false, s) := by
  unfold match_char
  rw [h]
  dsimp only
  rw [if_neg he]

theorem add_token_case {s s' : Scanner} {k : TokenType} {n : Nat}
    (hasc : IsAsciiSrc s.source) (hst : s.start = s.current)
    (hn : s.current < n) (hlen : n ≤ s.source.length)
    (hnl : nl (s.source.take n) = nl (s.source.take s.current))
    (hk : k ≠ .Eof)
    (h : add_token { s with current := n } k = .ok s') :
    STInv s s' := by
  rw [add_token_eq k (by exact hasc) (by dsimp only; omega) (by exact hlen)] at h
  injection h with h1
  subst h1
  refine ⟨rfl, rfl, by dsimp only; omega, by dsimp only; exact hlen,
    by dsimp only; rw [hnl], Or.inr ⟨_, rfl, ?_, rfl, hk⟩⟩
  dsimp only
  rw [hst]

theorem op_case {s s' : Scanner} {c : Char} (k1 k2 : TokenType)
    (hasc : IsAsciiSrc s.source) (hst : s.start = s.current)
    (hg : s.source.get? s.current = some c) (hcn : c ≠ '\n')
    (hk1 : k1 ≠ .Eof) (hk2 : k2 ≠ .Eof)
    (h : (if (match_char { s with current := s.current + 1 } '=').1
          then add_token (match_char { s with current := s.current + 1 } '=').2 k2
          else add_token (match_char { s with current := s.current + 1 } '=').2 k1) = .ok s') :
    STInv s s' := by
  have hlt := get?_lt hg
  have hstep : nl (s.source.take (s.current + 1)) = nl (s.source.take s.current) := by
    rw [nl_take_succ hg, if_neg hcn]
    omega
  cases hg2 : s.source.get? (s.current + 1) with
  | none =>
    rw [match_char_none '=' hg2] at h
    dsimp only at h
    exact add_token_case hasc hst (by omega) (by omega) hstep hk1 h
  | some c2 =>
    by_cases he : c2 = '='
    · rw [match_char_hit hg2 he] at h
      dsimp only at h
      have hlt2 := get?_lt hg2
      have hstep2 : nl (s.source.take (s.current + 1 + 1)) = nl (s.source.take s.current) := by
        rw [nl_take_succ hg2, if_neg (by rw [he]; decide)]
        omega
      exact add_token_case hasc hst (by omega) (by omega) hstep2 hk2 h
    · rw [match_char_miss hg2 he] at h
      dsimp only at h
      exact add_token_case hasc hst (by omega) (by omega) hstep hk1 h

end Scanner

end RsLox

namespace RsLox

theorem nl_chunk_zero {src : List Char} {a b : Nat} {chunk : List Char}
    (hc : (src.drop a).take (b - a) = chunk)
    (hab : a ≤ b) (hnm : '\n' ∉ chunk) :
    nl (src.take b) = nl (src.take a) := by
  have hsplitt : src.take b = src.take a ++ (src.drop a).take (b - a) := by
    conv_lhs => rw [show b = a + (b - a) by omega]
    exact List.take_add ..
  rw [hsplitt, nl_append, hc, nl_eq_zero hnm]
  omega

theorem no_nl_digits {c : Char} {t : List Char} (hdd : c.isDigit = true)
    (hd : ∀ x ∈ t, x.isDigit = true) : '\n' ∉ c :: t := by
  intro hm
  rcases List.mem_cons.mp hm with h | h
  · rw [← h] at hdd
    exact absurd hdd (by decide)
  · exact absurd (hd _ h) (by decide)

theorem no_nl_digits_dot {c : Char} {t1 t2 : List Char} (hdd : c.isDigit = true)
    (hd1 : ∀ x ∈ t1, x.isDigit = true) (hd2 : ∀ x ∈ t2, x.isDigit = true) :
    '\n' ∉ c :: t1 ++ '.' :: t2 := by
  intro hm
  rcases List.mem_cons.mp hm with h | h
  · rw [← h] at hdd
    exact absurd hdd (by decide)
  · rcases List.mem_append.mp h with h | h
    · exact absurd (hd1 _ h) (by decide)
    · rcases List.mem_cons.mp h with h | h
      · cases h
      · exact absurd (hd2 _ h) (by decide)

namespace Scanner

theorem number_case {s s' : Scanner} {c : Char}
    (hasc : IsAsciiSrc s.source) (hst : s.start = s.current)
    (hg : s.source.get? s.current = some c) (hdd : c.isDigit = true)
    (h : number { s with current := s.current + 1 } = .ok s') :
    STInv s s' := by
  have hlt := get?_lt hg
  obtain ⟨hdig1, hdig2, hlex1, hlex2c, hni, hyi⟩ :=
    number_spec (s := { s with current := s.current + 1 }) (d := c) _ _ _
      hasc (by dsimp only; omega) (by dsimp only; omega)
      (by dsimp only; rw [hst]; exact hg) hdd rfl rfl rfl
  dsimp only at hdig1 hdig2 hlex1 hlex2c hni hyi
  rw [hst] at hlex1 hlex2c
  have hlen1 : ((s.source.drop (s.current + 1)).takeWhile Char.isDigit).length ≤
      s.source.length - (s.current + 1) := by
    have h1 := length_takeWhile (p := Char.isDigit) (s.source.drop (s.current + 1))
    rw [List.length_drop] at h1
    exact h1
  by_cases hdot : s.source.get? (s.current + 1 +
      ((s.source.drop (s.current + 1)).takeWhile Char.isDigit).length) = some '.' ∧
      ∃ e, s.source.get? (s.current + 1 +
        ((s.source.drop (s.current + 1)).takeWhile Char.isDigit).length + 1) = some e ∧
        e.isDigit = true
  · obtain ⟨hdot1, e, hge, he⟩ := hdot
    rw [hyi hdot1 e hge he] at h
    injection h with h1
    subst h1
    have hplt := get?_lt hge
    have hlen2 : ((s.source.drop (s.current + 1 +
        ((s.source.drop (s.current + 1)).takeWhile Char.isDigit).length +
          1)).takeWhile Char.isDigit).length ≤
        s.source.length - (s.current + 1 +
          ((s.source.drop (s.current + 1)).takeWhile Char.isDigit).length + 1) := by
      have h2 := length_takeWhile (p := Char.isDigit) (s.source.drop (s.current + 1 +
        ((s.source.drop (s.current + 1)).takeWhile Char.isDigit).length + 1))
      rw [List.length_drop] at h2
      exact h2
    have hchunk := hlex2c hdot1
    have hnlz := nl_chunk_zero hchunk (by omega) (no_nl_digits_dot hdd hdig1 hdig2)
    refine ⟨rfl, rfl, by dsimp only; omega, by dsimp only; omega, ?_,
      Or.inr ⟨_, rfl, ?_, rfl, by dsimp only; decide⟩⟩
    · dsimp only
      rw [hnlz]
    · dsimp only
      rw [← hchunk]
  · rw [hni hdot] at h
    injection h with h1
    subst h1
    have hnlz := nl_chunk_zero hlex1 (by omega) (no_nl_digits hdd hdig1)
    refine ⟨rfl, rfl, by dsimp only; omega, by dsimp only; omega, ?_,
      Or.inr ⟨_, rfl, ?_, rfl, by dsimp only; decide⟩⟩
    · dsimp only
      rw [hnlz]
    · dsimp only
      rw [← hlex1]

end Scanner

end RsLox

namespace RsLox

namespace Scanner

theorem string_case {s s' : Scanner}
    (hasc : IsAsciiSrc s.source) (hst : s.start = s.current)
    (hg : s.source.get? s.current = some '"')
    (h : string { s with current := s.current + 1 } = .ok s') :
    STInv s s' := by
  have hlt := get?_lt hg
  obtain ⟨j1, j2, j3, j4, j5, t, jt, jlex, jline, jtype⟩ :=
    string_inv (s := { s with current := s.current + 1 })
      hasc (by dsimp only; rw [hst]) (by dsimp only; omega) h
  dsimp only at j1 j2 j3 j4 j5 jt jlex jline
  have hstep : nl (s.source.take (s.current + 1)) = nl (s.source.take s.current) := by
    rw [nl_take_succ hg, if_neg (by decide)]
    omega
  refine ⟨j1, j2, by omega, j4, by omega,
    Or.inr ⟨t, jt, ?_, jline, by rw [jtype]; decide⟩⟩
  rw [jlex, hst]

theorem identifier_case {s s' : Scanner} {c : Char}
    (hasc : IsAsciiSrc s.source) (hst : s.start = s.current)
    (hg : s.source.get? s.current = some c) (hcn : c ≠ '\n')
    (h : identifier { s with current := s.current + 1 } = .ok s') :
    STInv s s' := by
  have hlt := get?_lt hg
  obtain ⟨j1, j2, j3, j4, j5, j6, t, jt, jlex, jline, jtype⟩ :=
    identifier_inv (s := { s with current := s.current + 1 })
      hasc (by dsimp only; rw [hst]) (by dsimp only; omega) h
  dsimp only at j1 j2 j3 j4 j5 j6 jt jlex jline
  have hstep : nl (s.source.take (s.current + 1)) = nl (s.source.take s.current) := by
    rw [nl_take_succ hg, if_neg hcn]
    omega
  refine ⟨j1, j2, by omega, j5, ?_, Or.inr ⟨t, jt, ?_, ?_, jtype⟩⟩
  · rw [j3, j6, hstep]
  · rw [jlex, hst]
  · rw [jline, j3]


theorem scan_token_inv {s s' : Scanner}
    (hasc : IsAsciiSrc s.source) (hst : s.start = s.current)
    (hle : s.current ≤ s.source.length)
    (h : scan_token s = .ok s') : STInv s s' := by
  unfold scan_token at h
  split at h
  · cases h
  · rename_i c s0 hadv
    obtain ⟨hg, hs0⟩ := advance_some hadv
    simp only at hg hs0
    subst hs0
    have hlt : s.current < s.source.length := get?_lt hg
    have hstep : c ≠ '\n' → nl (s.source.take (s.current + 1)) = nl (s.source.take s.current) := by
      intro hcn
      rw [nl_take_succ hg, if_neg hcn]
      omega
    by_cases hc1 : c = '('
    · rw [if_pos hc1] at h
      subst hc1
      exact add_token_case hasc hst (by omega) (by omega) (hstep (by decide)) (by decide) h
    · rw [if_neg hc1] at h
      by_cases hc2 : c = ')'
      · rw [if_pos hc2] at h
        subst hc2
        exact add_token_case hasc hst (by omega) (by omega) (hstep (by decide)) (by decide) h
      · rw [if_neg hc2] at h
        by_cases hc3 : c = '\x7b'
        · rw [if_pos hc3] at h
          subst hc3
          exact add_token_case hasc hst (by omega) (by omega) (hstep (by decide)) (by decide) h
        · rw [if_neg hc3] at h
          by_cases hc4 : c = '\x7d'
          · rw [if_pos hc4] at h
            subst hc4
            exact add_token_case hasc hst (by omega) (by omega) (hstep (by decide)) (by decide) h
          · rw [if_neg hc4] at h
            by_cases hc5 : c = ','
            · rw [if_pos hc5] at h
              subst hc5
              exact add_token_case hasc hst (by omega) (by omega) (hstep (by decide)) (by decide) h
            · rw [if_neg hc5] at h
              by_cases hc6 : c = '.'
              · rw [if_pos hc6] at h
                subst hc6
                exact add_token_case hasc hst (by omega) (by omega) (hstep (by decide)) (by decide) h
              · rw [if_neg hc6] at h
                by_cases hc7 : c = '-'
                · rw [if_pos hc7] at h
                  subst hc7
                  exact add_token_case hasc hst (by omega) (by omega) (hstep (by decide)) (by decide) h
                · rw [if_neg hc7] at h
                  by_cases hc8 : c = '+'
                  · rw [if_pos hc8] at h
                    subst hc8
                    exact add_token_case hasc hst (by omega) (by omega) (hstep (by decide)) (by decide) h
                  · rw [if_neg hc8] at h
                    by_cases hc9 : c = ';'
                    · rw [if_pos hc9] at h
                      subst hc9
                      exact add_token_case hasc hst (by omega) (by omega) (hstep (by decide)) (by decide) h
                    · rw [if_neg hc9] at h
                      by_cases hc10 : c = '*'
                      · rw [if_pos hc10] at h
                        subst hc10
                        exact add_token_case hasc hst (by omega) (by omega) (hstep (by decide)) (by decide) h
                      · rw [if_neg hc10] at h
                        by_cases hc11 : c = '!'
                        · rw [if_pos hc11] at h
                          subst hc11
                          dsimp only at h
                          exact op_case .Bang .BangEqual hasc hst hg (by decide) (by decide) (by decide) h
                        · rw [if_neg hc11] at h
                          by_cases hc12 : c = '='
                          · rw [if_pos hc12] at h
                            subst hc12
                            dsimp only at h
                            exact op_case .Equal .EqualEqual hasc hst hg (by decide) (by decide) (by decide) h
                          · rw [if_neg hc12] at h
                            by_cases hc13 : c = '<'
                            · rw [if_pos hc13] at h
                              subst hc13
                              dsimp only at h
                              exact op_case .Less .LessEqual hasc hst hg (by decide) (by decide) (by decide) h
                            · rw [if_neg hc13] at h
                              by_cases hc14 : c = '>'
                              · rw [if_pos hc14] at h
                                subst hc14
                                dsimp only at h
                                exact op_case .Greater .GreaterEqual hasc hst hg (by decide) (by decide) (by decide) h
                              · rw [if_neg hc14] at h
                                by_cases hc15 : c = '/'
                                · rw [if_pos hc15] at h
                                  subst hc15
                                  dsimp only at h
                                  cases hg2 : s.source.get? (s.current + 1) with
                                  | none =>
                                    rw [match_char_none '/' hg2] at h
                                    dsimp only at h
                                    exact add_token_case hasc hst (by omega) (by omega) (hstep (by decide)) (by decide) h
                                  | some c2 =>
                                    by_cases he : c2 = '/'
                                    · rw [match_char_hit hg2 he] at h
                                      dsimp only at h
                                      obtain ⟨i1, i2, i3, i4, i5, i6, i7⟩ := comment_loop_shape _ _ _ h
                                      dsimp only at i1 i2 i3 i4 i5 i6 i7
                                      have hlt2 := get?_lt hg2
                                      refine ⟨i1, i3, by omega, i6 (by omega), ?_, Or.inl i2⟩
                                      rw [i4, i7]
                                      have h1 := hstep (by decide)
                                      have h2 : nl (s.source.take (s.current + 1 + 1)) = nl (s.source.take (s.current + 1)) := by
                                        rw [nl_take_succ hg2, if_neg (by rw [he]; decide)]
                                        omega
                                      omega
                                    · rw [match_char_miss hg2 he] at h
                                      dsimp only at h
                                      exact add_token_case hasc hst (by omega) (by omega) (hstep (by decide)) (by decide) h
                                · rw [if_neg hc15] at h
                                  by_cases hc16 : c = ' ' ∨ c = '\r' ∨ c = '\t'
                                  · rw [if_pos hc16] at h
                                    injection h with h1
                                    subst h1
                                    have hcn : c ≠ '\n' := by rcases hc16 with rfl | rfl | rfl <;> decide
                                    exact ⟨rfl, rfl, by dsimp only; omega, by dsimp only; omega,
                                      by dsimp only; rw [hstep hcn], Or.inl rfl⟩
                                  · rw [if_neg hc16] at h
                                    by_cases hc17 : c = '\n'
                                    · rw [if_pos hc17] at h
                                      subst hc17
                                      injection h with h1
                                      subst h1
                                      have hstep1 : nl (s.source.take (s.current + 1)) = nl (s.source.take s.current) + 1 := by
                                        rw [nl_take_succ hg, if_pos rfl]
                                      exact ⟨rfl, rfl, by dsimp only; omega, by dsimp only; omega,
                                        by dsimp only; rw [hstep1]; omega, Or.inl rfl⟩
                                    · rw [if_neg hc17] at h
                                      by_cases hc18 : c = '"'
                                      · rw [if_pos hc18] at h
                                        subst hc18
                                        exact string_case hasc hst hg h
                                      · rw [if_neg hc18] at h
                                        by_cases hc19 : c.isDigit = true
                                        · rw [if_pos hc19] at h
                                          exact number_case hasc hst hg hc19 h
                                        · rw [if_neg hc19] at h
                                          by_cases hc20 : c.isAlpha = true ∨ c = '_'
                                          · rw [if_pos hc20] at h
                                            have hcn : c ≠ '\n' := by
                                              rcases hc20 with h1 | rfl
                                              · intro e
                                                rw [e] at h1
                                                exact absurd h1 (by decide)
                                              · decide
                                            exact identifier_case hasc hst hg hcn h
                                          · rw [if_neg hc20] at h
                                            cases h

end Scanner

end RsLox

namespace RsLox

namespace Scanner

/-! ### No-panic / no-error / no-fuel facts for the emission helpers -/

theorem add_token_ok {t s' : Scanner} {k : TokenType} (h : add_token t k = .ok s') :
    s'.source = t.source ∧ s'.start = t.start ∧ s'.current = t.current ∧ s'.line = t.line := by
  unfold add_token at h
  split at h
  · injection h with h1
    subst h1
    exact ⟨rfl, rfl, rfl, rfl⟩
  · cases h

theorem add_token_literal_ok {t s' : Scanner} {k : TokenType} {lit : Literal}
    (h : add_token_literal t k lit = .ok s') :
    s'.source = t.source ∧ s'.start = t.start ∧ s'.current = t.current ∧ s'.line = t.line := by
  unfold add_token_literal at h
  split at h
  · injection h with h1
    subst h1
    exact ⟨rfl, rfl, rfl, rfl⟩
  · cases h

theorem add_token_ne_err {t : Scanner} {k : TokenType} {e : LoxError} :
    add_token t k ≠ .err e := by
  intro h
  unfold add_token at h
  split at h <;> cases h

theorem add_token_literal_ne_err {t : Scanner} {k : TokenType} {lit : Literal} {e : LoxError} :
    add_token_literal t k lit ≠ .err e := by
  intro h
  unfold add_token_literal at h
  split at h <;> cases h

theorem add_token_ne_fuelOut {t : Scanner} {k : TokenType} :
    add_token t k ≠ .fuelOut := by
  intro h
  unfold add_token at h
  split at h <;> cases h

theorem add_token_literal_ne_fuelOut {t : Scanner} {k : TokenType} {lit : Literal} :
    add_token_literal t k lit ≠ .fuelOut := by
  intro h
  unfold add_token_literal at h
  split at h <;> cases h

theorem finish_number_ok {t s' : Scanner} (h : finish_number t = .ok s') :
    s'.source = t.source ∧ s'.start = t.start ∧ s'.current = t.current ∧ s'.line = t.line := by
  unfold finish_number at h
  split at h
  · split at h
    · exact add_token_literal_ok h
    · cases h
  · cases h

theorem finish_number_ne_err {t : Scanner} {e : LoxError} : finish_number t ≠ .err e := by
  intro h
  unfold finish_number at h
  split at h
  · split at h
    · exact add_token_literal_ne_err h
    · cases h
  · cases h

theorem finish_number_ne_fuelOut {t : Scanner} : finish_number t ≠ .fuelOut := by
  intro h
  unfold finish_number at h
  split at h
  · split at h
    · exact add_token_literal_ne_fuelOut h
    · cases h
  · cases h

theorem match_char_shape (t : Scanner) (a : Char) :
    (match_char t a).2.source = t.source ∧ (match_char t a).2.start = t.start ∧
    (match_char t a).2.line = t.line ∧ (match_char t a).2.tokens = t.tokens ∧
    t.current ≤ (match_char t a).2.current ∧
    ((match_char t a).2.current ≤ t.current + 1) ∧
    (t.current ≤ t.source.length → (match_char t a).2.current ≤ t.source.length) := by
  unfold match_char
  cases hg : t.source.get? t.current with
  | none =>
    dsimp only
    exact ⟨rfl, rfl, rfl, rfl, le_refl _, by omega, fun h => h⟩
  | some c =>
    dsimp only
    by_cases he : c = a
    · rw [if_pos he]
      have := get?_lt hg
      exact ⟨rfl, rfl, rfl, rfl, by dsimp only; omega, by dsimp only; omega,
        fun _ => by dsimp only; omega⟩
    · rw [if_neg he]
      exact ⟨rfl, rfl, rfl, rfl, le_refl _, by dsimp only; omega, fun h => h⟩

end Scanner

end RsLox

namespace RsLox

namespace Scanner

/-! ### Shape and impossibility facts for the compound arms -/

theorem string_ok_shape {t s' : Scanner} (h : string t = .ok s') :
    s'.source = t.source ∧ s'.start = t.start ∧ t.current ≤ s'.current ∧
    (t.current ≤ t.source.length → s'.current ≤ t.source.length) ∧
    ('\n' ∉ t.source → s'.line = t.line) := by
  unfold string at h
  split at h
  · rename_i s1 hl
    obtain ⟨i1, i2, i3, i4, i5, i6, i7⟩ := string_loop_shape _ _ _ hl
    split at h
    · cases h
    · rename_i hae
      split at h
      · rename_i c2 s2 ha
        obtain ⟨hg, hs2⟩ := advance_some ha
        simp only at hg hs2
        subst hs2
        have hlt := get?_lt hg
        rw [i1] at hlt
        split at h
        · rename_i value hbs
          obtain ⟨k1, k2, k3, k4⟩ := add_token_literal_ok h
          dsimp only at k1 k2 k3 k4
          refine ⟨by rw [k1, i1], by rw [k2, i3], by omega, fun _ => by omega, ?_⟩
          intro hnn
          rw [k4]
          have hz1 := nl_take_eq_zero hnn t.current
          have hz2 := nl_take_eq_zero hnn s1.current
          omega
        · cases h
      · cases h
  · rename_i hne
    exact absurd h (fun hh => hne _ hh)

theorem string_ne_fuelOut {t : Scanner} : string t ≠ .fuelOut := by
  intro h
  unfold string at h
  split at h
  · split at h
    · cases h
    · split at h
      · split at h
        · exact add_token_literal_ne_fuelOut h
        · cases h
      · cases h
  · exact string_loop_ne_fuelOut _ _ (by omega) h

theorem string_err_line {t : Scanner} {e : LoxError} (h : string t = .err e)
    (hnn : '\n' ∉ t.source) : e.line = t.line := by
  unfold string at h
  split at h
  · rename_i s1 hl
    obtain ⟨i1, i2, i3, i4, i5, i6, i7⟩ := string_loop_shape _ _ _ hl
    split at h
    · injection h with h1
      subst h1
      have hz1 := nl_take_eq_zero hnn t.current
      have hz2 := nl_take_eq_zero hnn s1.current
      dsimp only
      omega
    · split at h
      · split at h
        · exact absurd h add_token_literal_ne_err
        · cases h
      · cases h
  · exact absurd h (string_loop_ne_err _ _ _)

theorem number_ok_shape {t s' : Scanner} (h : number t = .ok s') :
    s'.source = t.source ∧ s'.start = t.start ∧ t.current ≤ s'.current ∧
    (t.current ≤ t.source.length → s'.current ≤ t.source.length) ∧ s'.line = t.line := by
  unfold number at h
  split at h
  · rename_i s1 hl
    obtain ⟨i1, i2, i3, i4, i5, i6, i7⟩ := digits_loop_shape _ _ _ hl
    split at h
    · cases h
    · rename_i c hp
      split at h
      · split at h
        · cases h
        · rename_i c2 hpn
          split at h
          · split at h
            · rename_i cv s2 ha
              obtain ⟨hg, hs2⟩ := advance_some ha
              simp only at hg hs2
              subst hs2
              have hlt := get?_lt hg
              rw [i1] at hlt
              split at h
              · rename_i s3 hl3
                obtain ⟨m1, m2, m3, m4, m5, m6, m7⟩ := digits_loop_shape _ _ _ hl3
                dsimp only at m1 m2 m3 m4 m5 m6 m7
                rw [i1] at m1 m6
                obtain ⟨k1, k2, k3, k4⟩ := finish_number_ok h
                refine ⟨by rw [k1, m1], by rw [k2, m3, i3], by omega,
                  fun hb => ?_, by rw [k4, m4, i4]⟩
                have := m6 (by omega)
                omega
              · rename_i hne3
                exact absurd h (fun hh => hne3 _ hh)
            · cases h
          · obtain ⟨k1, k2, k3, k4⟩ := finish_number_ok h
            exact ⟨by rw [k1, i1], by rw [k2, i3], by omega,
              fun hb => by have := i6 hb; omega, by rw [k4, i4]⟩
      · obtain ⟨k1, k2, k3, k4⟩ := finish_number_ok h
        exact ⟨by rw [k1, i1], by rw [k2, i3], by omega,
          fun hb => by have := i6 hb; omega, by rw [k4, i4]⟩
  · rename_i hne
    exact absurd h (fun hh => hne _ hh)

theorem number_ne_err {t : Scanner} {e : LoxError} : number t ≠ .err e := by
  intro h
  unfold number at h
  split at h
  · split at h
    · cases h
    · split at h
      · split at h
        · cases h
        · split at h
          · split at h
            · split at h
              · exact finish_number_ne_err h
              · exact absurd h (digits_loop_ne_err _ _ _)
            · cases h
          · exact finish_number_ne_err h
      · exact finish_number_ne_err h
  · exact absurd h (digits_loop_ne_err _ _ _)

theorem number_ne_fuelOut {t : Scanner} : number t ≠ .fuelOut := by
  intro h
  unfold number at h
  split at h
  · split at h
    · cases h
    · split at h
      · split at h
        · cases h
        · split at h
          · split at h
            · split at h
              · exact finish_number_ne_fuelOut h
              · exact absurd h (digits_loop_ne_fuelOut _ _ (by omega))
            · cases h
          · exact finish_number_ne_fuelOut h
      · exact finish_number_ne_fuelOut h
  · exact absurd h (digits_loop_ne_fuelOut _ _ (by omega))

theorem number_ne_panic {s : Scanner} {d : Char}
    (hasc : IsAsciiSrc s.source) (hst : s.start + 1 = s.current)
    (hle : s.current ≤ s.source.length)
    (hd0 : s.source.get? s.start = some d) (hdd : d.isDigit = true) :
    number s ≠ .panic := by
  obtain ⟨_, _, _, _, hni, hyi⟩ := number_spec _ _ _ hasc hst hle hd0 hdd rfl rfl rfl
  by_cases hdot : s.source.get? (s.current +
      ((s.source.drop s.current).takeWhile Char.isDigit).length) = some '.' ∧
      ∃ e, s.source.get? (s.current +
        ((s.source.drop s.current).takeWhile Char.isDigit).length + 1) = some e ∧
        e.isDigit = true
  · obtain ⟨h1, e, h2, h3⟩ := hdot
    rw [hyi h1 e h2 h3]
    intro hh
    cases hh
  · rw [hni hdot]
    intro hh
    cases hh

theorem identifier_ok_shape {t s' : Scanner} (h : identifier t = .ok s') :
    s'.source = t.source ∧ s'.start = t.start ∧ t.current ≤ s'.current ∧
    (t.current ≤ t.source.length → s'.current ≤ t.source.length) ∧ s'.line = t.line := by
  unfold identifier at h
  split at h
  · rename_i s1 hl
    obtain ⟨i1, i2, i3, i4, i5, i6, i7⟩ := ident_loop_shape _ _ _ hl
    split at h
    · obtain ⟨k1, k2, k3, k4⟩ := add_token_ok h
      exact ⟨by rw [k1, i1], by rw [k2, i3], by omega,
        fun hb => by have := i6 hb; omega, by rw [k4, i4]⟩
    · cases h
  · rename_i hne
    exact absurd h (fun hh => hne _ hh)

theorem identifier_ne_err {t : Scanner} {e : LoxError} : identifier t ≠ .err e := by
  intro h
  unfold identifier at h
  split at h
  · split at h
    · exact add_token_ne_err h
    · cases h
  · exact absurd h (ident_loop_ne_err _ _ _)

theorem identifier_ne_fuelOut {t : Scanner} : identifier t ≠ .fuelOut := by
  intro h
  unfold identifier at h
  split at h
  · split at h
    · exact add_token_ne_fuelOut h
    · cases h
  · exact absurd h (ident_loop_ne_fuelOut _ _ (by omega))

theorem identifier_ne_panic {t : Scanner}
    (hasc : IsAsciiSrc t.source) (hst : t.start + 1 = t.current)
    (hle : t.current ≤ t.source.length) : identifier t ≠ .panic := by
  intro h
  unfold identifier at h
  split at h
  · rename_i s1 hl
    obtain ⟨i1, i2, i3, i4, i5, i6, i7⟩ := ident_loop_shape _ _ _ hl
    split at h
    · rename_i text hbs
      rw [add_token_eq (keyword text) (by rw [i1]; exact hasc)
        (by rw [i3]; omega) (by rw [i1]; exact i6 hle)] at h
      cases h
    · rename_i hbs
      rw [i1, i3, byteSlice_ascii hasc (by omega) (i6 hle)] at hbs
      cases hbs
  · exact ident_loop_ne_panic _ _ hasc h

theorem string_ne_panic {s : Scanner}
    (hasc : IsAsciiSrc s.source) (hst : s.start + 1 = s.current)
    (hle : s.current ≤ s.source.length) : string s ≠ .panic := by
  intro h
  unfold string at h
  split at h
  · rename_i s1 hl
    obtain ⟨i1, i2, i3, i4, i5, i6, i7⟩ := string_loop_shape _ _ _ hl
    split at h
    · cases h
    · rename_i hae
      rcases i7 with hae' | hq
      · exact absurd hae' hae
      split at h
      · rename_i c2 s2 ha
        obtain ⟨hg, hs2⟩ := advance_some ha
        simp only at hg hs2
        subst hs2
        have hqlt : s1.current < s1.source.length := get?_lt hq
        rw [i1] at hqlt
        split at h
        · rename_i value hbs
          rw [add_token_literal_eq .String (.String value)
            (by dsimp only; rw [i1]; exact hasc)
            (by dsimp only; rw [i3]; omega)
            (by dsimp only; rw [i1]; omega)] at h
          cases h
        · rename_i hbs
          dsimp only at hbs
          rw [i1, i3, Nat.add_sub_cancel,
            byteSlice_ascii hasc (by omega) (by omega)] at hbs
          cases hbs
      · rename_i ha
        have := advance_none ha
        rw [this] at hq
        cases hq
  · exact string_loop_ne_panic _ _ hasc h

end Scanner

end RsLox


namespace RsLox

namespace Scanner

theorem scan_token_shape {s s' : Scanner} (h : scan_token s = .ok s') :
    s'.source = s.source ∧ s.current < s'.current ∧
    (s.current ≤ s.source.length → s'.current ≤ s.source.length) ∧
    ('\n' ∉ s.source → s'.line = s.line) := by
  unfold scan_token at h
  split at h
  · cases h
  · rename_i c s0 hadv
    obtain ⟨hg, hs0⟩ := advance_some hadv
    simp only at hg hs0
    subst hs0
    have hlt : s.current < s.source.length := get?_lt hg
    by_cases hc1 : c = '('
    · rw [if_pos hc1] at h
      subst hc1
      obtain ⟨k1, k2, k3, k4⟩ := add_token_ok h
      dsimp only at k1 k2 k3 k4
      exact ⟨k1, by omega, fun _ => by omega, fun _ => k4⟩
    · rw [if_neg hc1] at h
      by_cases hc2 : c = ')'
      · rw [if_pos hc2] at h
        subst hc2
        obtain ⟨k1, k2, k3, k4⟩ := add_token_ok h
        dsimp only at k1 k2 k3 k4
        exact ⟨k1, by omega, fun _ => by omega, fun _ => k4⟩
      · rw [if_neg hc2] at h
        by_cases hc3 : c = '\x7b'
        · rw [if_pos hc3] at h
          subst hc3
          obtain ⟨k1, k2, k3, k4⟩ := add_token_ok h
          dsimp only at k1 k2 k3 k4
          exact ⟨k1, by omega, fun _ => by omega, fun _ => k4⟩
        · rw [if_neg hc3] at h
          by_cases hc4 : c = '\x7d'
          · rw [if_pos hc4] at h
            subst hc4
            obtain ⟨k1, k2, k3, k4⟩ := add_token_ok h
            dsimp only at k1 k2 k3 k4
            exact ⟨k1, by omega, fun _ => by omega, fun _ => k4⟩
          · rw [if_neg hc4] at h
            by_cases hc5 : c = ','
            · rw [if_pos hc5] at h
              subst hc5
              obtain ⟨k1, k2, k3, k4⟩ := add_token_ok h
              dsimp only at k1 k2 k3 k4
              exact ⟨k1, by omega, fun _ => by omega, fun _ => k4⟩
            · rw [if_neg hc5] at h
              by_cases hc6 : c = '.'
              · rw [if_pos hc6] at h
                subst hc6
                obtain ⟨k1, k2, k3, k4⟩ := add_token_ok h
                dsimp only at k1 k2 k3 k4
                exact ⟨k1, by omega, fun _ => by omega, fun _ => k4⟩
              · rw [if_neg hc6] at h
                by_cases hc7 : c = '-'
                · rw [if_pos hc7] at h
                  subst hc7
                  obtain ⟨k1, k2, k3, k4⟩ := add_token_ok h
                  dsimp only at k1 k2 k3 k4
                  exact ⟨k1, by omega, fun _ => by omega, fun _ => k4⟩
                · rw [if_neg hc7] at h
                  by_cases hc8 : c = '+'
                  · rw [if_pos hc8] at h
                    subst hc8
                    obtain ⟨k1, k2, k3, k4⟩ := add_token_ok h
                    dsimp only at k1 k2 k3 k4
                    exact ⟨k1, by omega, fun _ => by omega, fun _ => k4⟩
                  · rw [if_neg hc8] at h
                    by_cases hc9 : c = ';'
                    · rw [if_pos hc9] at h
                      subst hc9
                      obtain ⟨k1, k2, k3, k4⟩ := add_token_ok h
                      dsimp only at k1 k2 k3 k4
                      exact ⟨k1, by omega, fun _ => by omega, fun _ => k4⟩
                    · rw [if_neg hc9] at h
                      by_cases hc10 : c = '*'
                      · rw [if_pos hc10] at h
                        subst hc10
                        obtain ⟨k1, k2, k3, k4⟩ := add_token_ok h
                        dsimp only at k1 k2 k3 k4
                        exact ⟨k1, by omega, fun _ => by omega, fun _ => k4⟩
                      · rw [if_neg hc10] at h
                        by_cases hc11 : c = '!'
                        · rw [if_pos hc11] at h
                          subst hc11
                          dsimp only at h
                          obtain ⟨mc1, mc2, mc3, mc4, mc5, mc6, mc7⟩ :=
                            match_char_shape { s with current := s.current + 1 } '='
                          dsimp only at mc1 mc2 mc3 mc4 mc5 mc6 mc7
                          split at h
                          · obtain ⟨k1, k2, k3, k4⟩ := add_token_ok h
                            exact ⟨by rw [k1, mc1], by omega, fun _ => by have := mc7 (by omega); omega,
                              fun _ => by rw [k4, mc3]⟩
                          · obtain ⟨k1, k2, k3, k4⟩ := add_token_ok h
                            exact ⟨by rw [k1, mc1], by omega, fun _ => by have := mc7 (by omega); omega,
                              fun _ => by rw [k4, mc3]⟩
                        · rw [if_neg hc11] at h
                          by_cases hc12 : c = '='
                          · rw [if_pos hc12] at h
                            subst hc12
                            dsimp only at h
                            obtain ⟨mc1, mc2, mc3, mc4, mc5, mc6, mc7⟩ :=
                              match_char_shape { s with current := s.current + 1 } '='
                            dsimp only at mc1 mc2 mc3 mc4 mc5 mc6 mc7
                            split at h
                            · obtain ⟨k1, k2, k3, k4⟩ := add_token_ok h
                              exact ⟨by rw [k1, mc1], by omega, fun _ => by have := mc7 (by omega); omega,
                                fun _ => by rw [k4, mc3]⟩
                            · obtain ⟨k1, k2, k3, k4⟩ := add_token_ok h
                              exact ⟨by rw [k1, mc1], by omega, fun _ => by have := mc7 (by omega); omega,
                                fun _ => by rw [k4, mc3]⟩
                          · rw [if_neg hc12] at h
                            by_cases hc13 : c = '<'
                            · rw [if_pos hc13] at h
                              subst hc13
                              dsimp only at h
                              obtain ⟨mc1, mc2, mc3, mc4, mc5, mc6, mc7⟩ :=
                                match_char_shape { s with current := s.current + 1 } '='
                              dsimp only at mc1 mc2 mc3 mc4 mc5 mc6 mc7
                              split at h
                              · obtain ⟨k1, k2, k3, k4⟩ := add_token_ok h
                                exact ⟨by rw [k1, mc1], by omega, fun _ => by have := mc7 (by omega); omega,
                                  fun _ => by rw [k4, mc3]⟩
                              · obtain ⟨k1, k2, k3, k4⟩ := add_token_ok h
                                exact ⟨by rw [k1, mc1], by omega, fun _ => by have := mc7 (by omega); omega,
                                  fun _ => by rw [k4, mc3]⟩
                            · rw [if_neg hc13] at h
                              by_cases hc14 : c = '>'
                              · rw [if_pos hc14] at h
                                subst hc14
                                dsimp only at h
                                obtain ⟨mc1, mc2, mc3, mc4, mc5, mc6, mc7⟩ :=
                                  match_char_shape { s with current := s.current + 1 } '='
                                dsimp only at mc1 mc2 mc3 mc4 mc5 mc6 mc7
                                split at h
                                · obtain ⟨k1, k2, k3, k4⟩ := add_token_ok h
                                  exact ⟨by rw [k1, mc1], by omega, fun _ => by have := mc7 (by omega); omega,
                                    fun _ => by rw [k4, mc3]⟩
                                · obtain ⟨k1, k2, k3, k4⟩ := add_token_ok h
                                  exact ⟨by rw [k1, mc1], by omega, fun _ => by have := mc7 (by omega); omega,
                                    fun _ => by rw [k4, mc3]⟩
                              · rw [if_neg hc14] at h
                                by_cases hc15 : c = '/'
                                · rw [if_pos hc15] at h
                                  subst hc15
                                  dsimp only at h
                                  obtain ⟨mc1, mc2, mc3, mc4, mc5, mc6, mc7⟩ :=
                                    match_char_shape { s with current := s.current + 1 } '/'
                                  dsimp only at mc1 mc2 mc3 mc4 mc5 mc6 mc7
                                  split at h
                                  · obtain ⟨i1, i2, i3, i4, i5, i6, i7⟩ := comment_loop_shape _ _ _ h
                                    exact ⟨by rw [i1, mc1], by omega, fun _ => by rw [mc1] at i6; have := i6 (by have := mc7 (by omega); omega); omega,
                                      fun _ => by rw [i4, mc3]⟩
                                  · obtain ⟨k1, k2, k3, k4⟩ := add_token_ok h
                                    exact ⟨by rw [k1, mc1], by omega, fun _ => by have := mc7 (by omega); omega,
                                      fun _ => by rw [k4, mc3]⟩
                                · rw [if_neg hc15] at h
                                  by_cases hc16 : c = ' ' ∨ c = '\r' ∨ c = '\t'
                                  · rw [if_pos hc16] at h
                                    injection h with h1
                                    subst h1
                                    exact ⟨rfl, by dsimp only; omega, fun _ => by dsimp only; omega, fun _ => rfl⟩
                                  · rw [if_neg hc16] at h
                                    by_cases hc17 : c = '\n'
                                    · rw [if_pos hc17] at h
                                      subst hc17
                                      injection h with h1
                                      subst h1
                                      exact ⟨rfl, by dsimp only; omega, fun _ => by dsimp only; omega,
                                        fun hnn => absurd (List.get?_mem hg) hnn⟩
                                    · rw [if_neg hc17] at h
                                      by_cases hc18 : c = '"'
                                      · rw [if_pos hc18] at h
                                        subst hc18
                                        obtain ⟨j1, j2, j3, j4, j5⟩ := string_ok_shape h
                                        dsimp only at j1 j2 j3 j4 j5
                                        exact ⟨j1, by omega, fun _ => j4 (by omega), fun hnn => j5 hnn⟩
                                      · rw [if_neg hc18] at h
                                        by_cases hc19 : c.isDigit = true
                                        · rw [if_pos hc19] at h
                                          obtain ⟨j1, j2, j3, j4, j5⟩ := number_ok_shape h
                                          dsimp only at j1 j2 j3 j4 j5
                                          exact ⟨j1, by omega, fun _ => j4 (by omega), fun _ => j5⟩
                                        · rw [if_neg hc19] at h
                                          by_cases hc20 : c.isAlpha = true ∨ c = '_'
                                          · rw [if_pos hc20] at h
                                            obtain ⟨j1, j2, j3, j4, j5⟩ := identifier_ok_shape h
                                            dsimp only at j1 j2 j3 j4 j5
                                            exact ⟨j1, by omega, fun _ => j4 (by omega), fun _ => j5⟩
                                          · rw [if_neg hc20] at h
                                            cases h


theorem scan_token_err_line {s : Scanner} {e : LoxError} (h : scan_token s = .err e)
    (hnn : '\n' ∉ s.source) : e.line = s.line := by
  unfold scan_token at h
  split at h
  · cases h
  · rename_i c s0 hadv
    obtain ⟨hg, hs0⟩ := advance_some hadv
    simp only at hg hs0
    subst hs0
    by_cases hc1 : c = '('
    · rw [if_pos hc1] at h
      subst hc1
      exact absurd h add_token_ne_err
    · rw [if_neg hc1] at h
      by_cases hc2 : c = ')'
      · rw [if_pos hc2] at h
        subst hc2
        exact absurd h add_token_ne_err
      · rw [if_neg hc2] at h
        by_cases hc3 : c = '\x7b'
        · rw [if_pos hc3] at h
          subst hc3
          exact absurd h add_token_ne_err
        · rw [if_neg hc3] at h
          by_cases hc4 : c = '\x7d'
          · rw [if_pos hc4] at h
            subst hc4
            exact absurd h add_token_ne_err
          · rw [if_neg hc4] at h
            by_cases hc5 : c = ','
            · rw [if_pos hc5] at h
              subst hc5
              exact absurd h add_token_ne_err
            · rw [if_neg hc5] at h
              by_cases hc6 : c = '.'
              · rw [if_pos hc6] at h
                subst hc6
                exact absurd h add_token_ne_err
              · rw [if_neg hc6] at h
                by_cases hc7 : c = '-'
                · rw [if_pos hc7] at h
                  subst hc7
                  exact absurd h add_token_ne_err
                · rw [if_neg hc7] at h
                  by_cases hc8 : c = '+'
                  · rw [if_pos hc8] at h
                    subst hc8
                    exact absurd h add_token_ne_err
                  · rw [if_neg hc8] at h
                    by_cases hc9 : c = ';'
                    · rw [if_pos hc9] at h
                      subst hc9
                      exact absurd h add_token_ne_err
                    · rw [if_neg hc9] at h
                      by_cases hc10 : c = '*'
                      · rw [if_pos hc10] at h
                        subst hc10
                        exact absurd h add_token_ne_err
                      · rw [if_neg hc10] at h
                        by_cases hc11 : c = '!'
                        · rw [if_pos hc11] at h
                          subst hc11
                          dsimp only at h
                          split at h
                          · exact absurd h add_token_ne_err
                          · exact absurd h add_token_ne_err
                        · rw [if_neg hc11] at h
                          by_cases hc12 : c = '='
                          · rw [if_pos hc12] at h
                            subst hc12
                            dsimp only at h
                            split at h
                            · exact absurd h add_token_ne_err
                            · exact absurd h add_token_ne_err
                          · rw [if_neg hc12] at h
                            by_cases hc13 : c = '<'
                            · rw [if_pos hc13] at h
                              subst hc13
                              dsimp only at h
                              split at h
                              · exact absurd h add_token_ne_err
                              · exact absurd h add_token_ne_err
                            · rw [if_neg hc13] at h
                              by_cases hc14 : c = '>'
                              · rw [if_pos hc14] at h
                                subst hc14
                                dsimp only at h
                                split at h
                                · exact absurd h add_token_ne_err
                                · exact absurd h add_token_ne_err
                              · rw [if_neg hc14] at h
                                by_cases hc15 : c = '/'
                                · rw [if_pos hc15] at h
                                  subst hc15
                                  dsimp only at h
                                  split at h
                                  · exact absurd h (comment_loop_ne_err _ _ _)
                                  · exact absurd h add_token_ne_err
                                · rw [if_neg hc15] at h
                                  by_cases hc16 : c = ' ' ∨ c = '\r' ∨ c = '\t'
                                  · rw [if_pos hc16] at h
                                    cases h
                                  · rw [if_neg hc16] at h
                                    by_cases hc17 : c = '\n'
                                    · rw [if_pos hc17] at h
                                      subst hc17
                                      cases h
                                    · rw [if_neg hc17] at h
                                      by_cases hc18 : c = '"'
                                      · rw [if_pos hc18] at h
                                        subst hc18
                                        exact string_err_line (t := { s with current := s.current + 1 }) h hnn
                                      · rw [if_neg hc18] at h
                                        by_cases hc19 : c.isDigit = true
                                        · rw [if_pos hc19] at h
                                          exact absurd h number_ne_err
                                        · rw [if_neg hc19] at h
                                          by_cases hc20 : c.isAlpha = true ∨ c = '_'
                                          · rw [if_pos hc20] at h
                                            exact absurd h identifier_ne_err
                                          · rw [if_neg hc20] at h
                                            injection h with h1
                                            subst h1
                                            rfl


theorem scan_token_ne_fuelOut {s : Scanner} : scan_token s ≠ .fuelOut := by
  intro h
  unfold scan_token at h
  split at h
  · cases h
  · rename_i c s0 hadv
    obtain ⟨hg, hs0⟩ := advance_some hadv
    simp only at hg hs0
    subst hs0
    by_cases hc1 : c = '('
    · rw [if_pos hc1] at h
      subst hc1
      exact add_token_ne_fuelOut h
    · rw [if_neg hc1] at h
      by_cases hc2 : c = ')'
      · rw [if_pos hc2] at h
        subst hc2
        exact add_token_ne_fuelOut h
      · rw [if_neg hc2] at h
        by_cases hc3 : c = '\x7b'
        · rw [if_pos hc3] at h
          subst hc3
          exact add_token_ne_fuelOut h
        · rw [if_neg hc3] at h
          by_cases hc4 : c = '\x7d'
          · rw [if_pos hc4] at h
            subst hc4
            exact add_token_ne_fuelOut h
          · rw [if_neg hc4] at h
            by_cases hc5 : c = ','
            · rw [if_pos hc5] at h
              subst hc5
              exact add_token_ne_fuelOut h
            · rw [if_neg hc5] at h
              by_cases hc6 : c = '.'
              · rw [if_pos hc6] at h
                subst hc6
                exact add_token_ne_fuelOut h
              · rw [if_neg hc6] at h
                by_cases hc7 : c = '-'
                · rw [if_pos hc7] at h
                  subst hc7
                  exact add_token_ne_fuelOut h
                · rw [if_neg hc7] at h
                  by_cases hc8 : c = '+'
                  · rw [if_pos hc8] at h
                    subst hc8
                    exact add_token_ne_fuelOut h
                  · rw [if_neg hc8] at h
                    by_cases hc9 : c = ';'
                    · rw [if_pos hc9] at h
                      subst hc9
                      exact add_token_ne_fuelOut h
                    · rw [if_neg hc9] at h
                      by_cases hc10 : c = '*'
                      · rw [if_pos hc10] at h
                        subst hc10
                        exact add_token_ne_fuelOut h
                      · rw [if_neg hc10] at h
                        by_cases hc11 : c = '!'
                        · rw [if_pos hc11] at h
                          subst hc11
                          dsimp only at h
                          split at h
                          · exact add_token_ne_fuelOut h
                          · exact add_token_ne_fuelOut h
                        · rw [if_neg hc11] at h
                          by_cases hc12 : c = '='
                          · rw [if_pos hc12] at h
                            subst hc12
                            dsimp only at h
                            split at h
                            · exact add_token_ne_fuelOut h
                            · exact add_token_ne_fuelOut h
                          · rw [if_neg hc12] at h
                            by_cases hc13 : c = '<'
                            · rw [if_pos hc13] at h
                              subst hc13
                              dsimp only at h
                              split at h
                              · exact add_token_ne_fuelOut h
                              · exact add_token_ne_fuelOut h
                            · rw [if_neg hc13] at h
                              by_cases hc14 : c = '>'
                              · rw [if_pos hc14] at h
                                subst hc14
                                dsimp only at h
                                split at h
                                · exact add_token_ne_fuelOut h
                                · exact add_token_ne_fuelOut h
                              · rw [if_neg hc14] at h
                                by_cases hc15 : c = '/'
                                · rw [if_pos hc15] at h
                                  subst hc15
                                  dsimp only at h
                                  split at h
                                  · exact comment_loop_ne_fuelOut _ _ (by omega) h
                                  · exact add_token_ne_fuelOut h
                                · rw [if_neg hc15] at h
                                  by_cases hc16 : c = ' ' ∨ c = '\r' ∨ c = '\t'
                                  · rw [if_pos hc16] at h
                                    cases h
                                  · rw [if_neg hc16] at h
                                    by_cases hc17 : c = '\n'
                                    · rw [if_pos hc17] at h
                                      subst hc17
                                      cases h
                                    · rw [if_neg hc17] at h
                                      by_cases hc18 : c = '"'
                                      · rw [if_pos hc18] at h
                                        subst hc18
                                        exact string_ne_fuelOut h
                                      · rw [if_neg hc18] at h
                                        by_cases hc19 : c.isDigit = true
                                        · rw [if_pos hc19] at h
                                          exact number_ne_fuelOut h
                                        · rw [if_neg hc19] at h
                                          by_cases hc20 : c.isAlpha = true ∨ c = '_'
                                          · rw [if_pos hc20] at h
                                            exact identifier_ne_fuelOut h
                                          · rw [if_neg hc20] at h
                                            cases h


theorem scan_token_ne_panic {s : Scanner}
    (hasc : IsAsciiSrc s.source) (hst : s.start = s.current)
    (hlt : s.current < s.source.length) : scan_token s ≠ .panic := by
  intro h
  unfold scan_token at h
  split at h
  · rename_i hadv
    have h1 := advance_none hadv
    have h2 := List.get?_eq_none.mp h1
    omega
  · rename_i c s0 hadv
    obtain ⟨hg, hs0⟩ := advance_some hadv
    simp only at hg hs0
    subst hs0
    by_cases hc1 : c = '('
    · rw [if_pos hc1] at h
      subst hc1
      rw [add_token_eq .LeftParen (by exact hasc) (by dsimp only; omega) (by dsimp only; omega)] at h
      cases h
    · rw [if_neg hc1] at h
      by_cases hc2 : c = ')'
      · rw [if_pos hc2] at h
        subst hc2
        rw [add_token_eq .RightParen (by exact hasc) (by dsimp only; omega) (by dsimp only; omega)] at h
        cases h
      · rw [if_neg hc2] at h
        by_cases hc3 : c = '\x7b'
        · rw [if_pos hc3] at h
          subst hc3
          rw [add_token_eq .LeftBrace (by exact hasc) (by dsimp only; omega) (by dsimp only; omega)] at h
          cases h
        · rw [if_neg hc3] at h
          by_cases hc4 : c = '\x7d'
          · rw [if_pos hc4] at h
            subst hc4
            rw [add_token_eq .RightBrace (by exact hasc) (by dsimp only; omega) (by dsimp only; omega)] at h
            cases h
          · rw [if_neg hc4] at h
            by_cases hc5 : c = ','
            · rw [if_pos hc5] at h
              subst hc5
              rw [add_token_eq .Comma (by exact hasc) (by dsimp only; omega) (by dsimp only; omega)] at h
              cases h
            · rw [if_neg hc5] at h
              by_cases hc6 : c = '.'
              · rw [if_pos hc6] at h
                subst hc6
                rw [add_token_eq .Dot (by exact hasc) (by dsimp only; omega) (by dsimp only; omega)] at h
                cases h
              · rw [if_neg hc6] at h
                by_cases hc7 : c = '-'
                · rw [if_pos hc7] at h
                  subst hc7
                  rw [add_token_eq .Minus (by exact hasc) (by dsimp only; omega) (by dsimp only; omega)] at h
                  cases h
                · rw [if_neg hc7] at h
                  by_cases hc8 : c = '+'
                  · rw [if_pos hc8] at h
                    subst hc8
                    rw [add_token_eq .Plus (by exact hasc) (by dsimp only; omega) (by dsimp only; omega)] at h
                    cases h
                  · rw [if_neg hc8] at h
                    by_cases hc9 : c = ';'
                    · rw [if_pos hc9] at h
                      subst hc9
                      rw [add_token_eq .Semicolon (by exact hasc) (by dsimp only; omega) (by dsimp only; omega)] at h
                      cases h
                    · rw [if_neg hc9] at h
                      by_cases hc10 : c = '*'
                      · rw [if_pos hc10] at h
                        subst hc10
                        rw [add_token_eq .Star (by exact hasc) (by dsimp only; omega) (by dsimp only; omega)] at h
                        cases h
                      · rw [if_neg hc10] at h
                        by_cases hc11 : c = '!'
                        · rw [if_pos hc11] at h
                          subst hc11
                          dsimp only at h
                          cases hg2 : s.source.get? (s.current + 1) with
                          | none =>
                            rw [match_char_none '=' hg2] at h
                            dsimp only at h
                            rw [add_token_eq .Bang (by exact hasc) (by dsimp only; omega) (by dsimp only; omega)] at h
                            cases h
                          | some c2 =>
                            by_cases he : c2 = '='
                            · rw [match_char_hit hg2 he] at h
                              dsimp only at h
                              have hlt2 := get?_lt hg2
                              rw [add_token_eq .BangEqual (by exact hasc) (by dsimp only; omega) (by dsimp only; omega)] at h
                              cases h
                            · rw [match_char_miss hg2 he] at h
                              dsimp only at h
                              rw [add_token_eq .Bang (by exact hasc) (by dsimp only; omega) (by dsimp only; omega)] at h
                              cases h
                        · rw [if_neg hc11] at h
                          by_cases hc12 : c = '='
                          · rw [if_pos hc12] at h
                            subst hc12
                            dsimp only at h
                            cases hg2 : s.source.get? (s.current + 1) with
                            | none =>
                              rw [match_char_none '=' hg2] at h
                              dsimp only at h
                              rw [add_token_eq .Equal (by exact hasc) (by dsimp only; omega) (by dsimp only; omega)] at h
                              cases h
                            | some c2 =>
                              by_cases he : c2 = '='
                              · rw [match_char_hit hg2 he] at h
                                dsimp only at h
                                have hlt2 := get?_lt hg2
                                rw [add_token_eq .EqualEqual (by exact hasc) (by dsimp only; omega) (by dsimp only; omega)] at h
                                cases h
                              · rw [match_char_miss hg2 he] at h
                                dsimp only at h
                                rw [add_token_eq .Equal (by exact hasc) (by dsimp only; omega) (by dsimp only; omega)] at h
                                cases h
                          · rw [if_neg hc12] at h
                            by_cases hc13 : c = '<'
                            · rw [if_pos hc13] at h
                              subst hc13
                              dsimp only at h
                              cases hg2 : s.source.get? (s.current + 1) with
                              | none =>
                                rw [match_char_none '=' hg2] at h
                                dsimp only at h
                                rw [add_token_eq .Less (by exact hasc) (by dsimp only; omega) (by dsimp only; omega)] at h
                                cases h
                              | some c2 =>
                                by_cases he : c2 = '='
                                · rw [match_char_hit hg2 he] at h
                                  dsimp only at h
                                  have hlt2 := get?_lt hg2
                                  rw [add_token_eq .LessEqual (by exact hasc) (by dsimp only; omega) (by dsimp only; omega)] at h
                                  cases h
                                · rw [match_char_miss hg2 he] at h
                                  dsimp only at h
                                  rw [add_token_eq .Less (by exact hasc) (by dsimp only; omega) (by dsimp only; omega)] at h
                                  cases h
                            · rw [if_neg hc13] at h
                              by_cases hc14 : c = '>'
                              · rw [if_pos hc14] at h
                                subst hc14
                                dsimp only at h
                                cases hg2 : s.source.get? (s.current + 1) with
                                | none =>
                                  rw [match_char_none '=' hg2] at h
                                  dsimp only at h
                                  rw [add_token_eq .Greater (by exact hasc) (by dsimp only; omega) (by dsimp only; omega)] at h
                                  cases h
                                | some c2 =>
                                  by_cases he : c2 = '='
                                  · rw [match_char_hit hg2 he] at h
                                    dsimp only at h
                                    have hlt2 := get?_lt hg2
                                    rw [add_token_eq .GreaterEqual (by exact hasc) (by dsimp only; omega) (by dsimp only; omega)] at h
                                    cases h
                                  · rw [match_char_miss hg2 he] at h
                                    dsimp only at h
                                    rw [add_token_eq .Greater (by exact hasc) (by dsimp only; omega) (by dsimp only; omega)] at h
                                    cases h
                              · rw [if_neg hc14] at h
                                by_cases hc15 : c = '/'
                                · rw [if_pos hc15] at h
                                  subst hc15
                                  dsimp only at h
                                  cases hg2 : s.source.get? (s.current + 1) with
                                  | none =>
                                    rw [match_char_none '/' hg2] at h
                                    dsimp only at h
                                    rw [add_token_eq .Slash (by exact hasc) (by dsimp only; omega) (by dsimp only; omega)] at h
                                    cases h
                                  | some c2 =>
                                    by_cases he : c2 = '/'
                                    · rw [match_char_hit hg2 he] at h
                                      dsimp only at h
                                      rw [if_pos rfl] at h
                                      exact comment_loop_ne_panic (s.source.length + 1)
                                        { s with current := s.current + 1 + 1 } hasc h
                                    · rw [match_char_miss hg2 he] at h
                                      dsimp only at h
                                      rw [add_token_eq .Slash (by exact hasc) (by dsimp only; omega) (by dsimp only; omega)] at h
                                      cases h
                                · rw [if_neg hc15] at h
                                  by_cases hc16 : c = ' ' ∨ c = '\r' ∨ c = '\t'
                                  · rw [if_pos hc16] at h
                                    cases h
                                  · rw [if_neg hc16] at h
                                    by_cases hc17 : c = '\n'
                                    · rw [if_pos hc17] at h
                                      subst hc17
                                      cases h
                                    · rw [if_neg hc17] at h
                                      by_cases hc18 : c = '"'
                                      · rw [if_pos hc18] at h
                                        subst hc18
                                        exact string_ne_panic (s := { s with current := s.current + 1 })
                                          (by exact hasc) (by dsimp only; omega) (by dsimp only; omega) h
                                      · rw [if_neg hc18] at h
                                        by_cases hc19 : c.isDigit = true
                                        · rw [if_pos hc19] at h
                                          exact number_ne_panic (s := { s with current := s.current + 1 })
                                            (by exact hasc) (by dsimp only; omega) (by dsimp only; omega)
                                            (by dsimp only; rw [hst]; exact hg) hc19 h
                                        · rw [if_neg hc19] at h
                                          by_cases hc20 : c.isAlpha = true ∨ c = '_'
                                          · rw [if_pos hc20] at h
                                            exact identifier_ne_panic (t := { s with current := s.current + 1 })
                                              (by exact hasc) (by dsimp only; omega) (by dsimp only; omega) h
                                          · rw [if_neg hc20] at h
                                            cases h


end Scanner

end RsLox

namespace RsLox

namespace Scanner

/-! ### The main scanning loop -/

theorem advance_eq {s : Scanner} {c : Char} (h : s.source.get? s.current = some c) :
    advance s = some (c, { s with current := s.current + 1 }) := by
  unfold advance
  rw [h]

theorem scan_loop_ne_fuelOut : ∀ (fuel : Nat) (s : Scanner),
    s.current ≤ s.source.length →
    s.source.length + 1 - s.current < fuel →
    scan_loop fuel s ≠ .fuelOut := by
  intro fuel
  induction fuel with
  | zero =>
    intro s hle hf
    exact absurd hf (by omega)
  | succ n ih =>
    intro s hle hf h
    unfold scan_loop at h
    split at h
    · cases h
    · split at h
      · rename_i s' hok
        obtain ⟨h1, h2, h3, h4⟩ := scan_token_shape hok
        dsimp only at h1 h2 h3 h4
        have hb := h3 hle
        exact ih s' (by rw [h1]; exact hb) (by rw [h1]; omega) h
      · cases h
      · cases h
      · rename_i hfo
        exact scan_token_ne_fuelOut hfo

theorem scan_loop_ok_ascii : ∀ (fuel : Nat) (s : Scanner) (ts : List Token),
    s.current ≤ s.source.length →
    scan_loop fuel s = .ok ts →
    IsAsciiSrc s.source := by
  intro fuel
  induction fuel with
  | zero =>
    intro s ts _ h
    cases h
  | succ n ih =>
    intro s ts hle h
    unfold scan_loop at h
    split at h
    · rename_i hae
      exact ascii_of_byteLen_le (Nat.le_trans hae hle)
    · split at h
      · rename_i s' hok
        obtain ⟨h1, h2, h3, h4⟩ := scan_token_shape hok
        dsimp only at h1 h2 h3 h4
        have := ih s' ts (by rw [h1]; exact h3 hle) h
        rw [h1] at this
        exact this
      · cases h
      · cases h
      · cases h

theorem scan_loop_ne_panic : ∀ (fuel : Nat) (s : Scanner),
    IsAsciiSrc s.source → s.current ≤ s.source.length →
    scan_loop fuel s ≠ .panic := by
  intro fuel
  induction fuel with
  | zero =>
    intro s _ _ h
    cases h
  | succ n ih =>
    intro s hasc hle h
    unfold scan_loop at h
    split at h
    · cases h
    · rename_i hnae
      split at h
      · rename_i s' hok
        obtain ⟨h1, h2, h3, h4⟩ := scan_token_shape hok
        dsimp only at h1 h2 h3 h4
        exact ih s' (by rw [h1]; exact hasc) (by rw [h1]; exact h3 hle) h
      · cases h
      · rename_i hp
        have hnae' : ¬ (byteLen s.source ≤ s.current) := hnae
        have hb := byteLen_of_ascii (l := s.source) hasc
        have hlt : s.current < s.source.length := by omega
        exact scan_token_ne_panic (s := { s with start := s.current })
          (by exact hasc) rfl (by exact hlt) hp
      · rename_i hfo
        exact scan_token_ne_fuelOut hfo

theorem scan_loop_err_line : ∀ (fuel : Nat) (s : Scanner) (e : LoxError),
    '\n' ∉ s.source →
    scan_loop fuel s = .err e →
    e.line = s.line := by
  intro fuel
  induction fuel with
  | zero =>
    intro s e _ h
    cases h
  | succ n ih =>
    intro s e hnn h
    unfold scan_loop at h
    split at h
    · cases h
    · split at h
      · rename_i s' hok
        obtain ⟨h1, h2, h3, h4⟩ := scan_token_shape hok
        dsimp only at h1 h2 h3 h4
        have := ih s' e (by rw [h1]; exact hnn) h
        rw [this]
        exact h4 hnn
      · rename_i e' herr
        injection h with h5
        subst h5
        exact scan_token_err_line (s := { s with start := s.current }) herr hnn
      · cases h
      · cases h

end Scanner

/-- A successful `scan_tokens` run implies the source is pure ASCII: the loop
only exits once `current` has reached the byte length of the source, while
`current` never exceeds the number of characters. -/
theorem scan_tokens_ok_ascii {source : List Char} {ts : List Token}
    (h : scan_tokens source = .ok ts) : IsAsciiSrc source :=
  Scanner.scan_loop_ok_ascii (source.length + 2) (Scanner.new source) ts
    (Nat.zero_le _) h

end RsLox

namespace RsLox

/-! ### Layout of the emitted tokens over the source -/

theorem cover_mem {src : List Char} {i : Nat} {ts : List Token}
    (h : Cover src i ts) : ∀ t ∈ ts, ∃ a b : Nat, a < b ∧ b ≤ src.length ∧
      t.lexeme = (src.drop a).take (b - a) ∧ t.line = nl (src.take b) := by
  induction h with
  | done i h =>
    intro t ht
    cases ht
  | skip i j ts hij hj h ih =>
    exact ih
  | tok i j t ts hij hj hlex hline h ih =>
    intro u hu
    rcases List.mem_cons.mp hu with rfl | hu'
    · exact ⟨i, j, hij, hj, hlex, hline⟩
    · exact ih u hu'

theorem drop_split (src : List Char) {i j : Nat} (hij : i ≤ j) :
    src.drop i = (src.drop i).take (j - i) ++ src.drop j := by
  have h1 := List.take_append_drop (j - i) (src.drop i)
  rw [List.drop_drop] at h1
  have h2 : i + (j - i) = j := by omega
  rw [h2] at h1
  exact h1.symm

/-- The round trip: from a covered token list, the source from position `i`
onwards is exactly the lexemes in order with the skipped characters
reinserted at their original positions (plus skipped trailing characters). -/
theorem cover_interleave {src : List Char} {i : Nat} {ts : List Token}
    (h : Cover src i ts) :
    ∃ (pieces : List (List Char × List Char)) (g : List Char),
      pieces.map Prod.snd = ts.map Token.lexeme ∧
      src.drop i = interleave pieces ++ g := by
  induction h with
  | done i h =>
    exact ⟨[], src.drop i, rfl, rfl⟩
  | skip i j ts hij hj h ih =>
    obtain ⟨pieces, g, hmap, heq⟩ := ih
    have hsplit := drop_split src (Nat.le_of_lt hij)
    cases pieces with
    | nil =>
      refine ⟨[], (src.drop i).take (j - i) ++ g, hmap, ?_⟩
      conv_lhs => rw [hsplit]
      rw [heq]
      simp [interleave]
    | cons p rest =>
      refine ⟨((src.drop i).take (j - i) ++ p.1, p.2) :: rest, g, ?_, ?_⟩
      · simpa using hmap
      · conv_lhs => rw [hsplit]
        rw [heq]
        simp [interleave]
  | tok i j t ts hij hj hlex hline h ih =>
    obtain ⟨pieces, g, hmap, heq⟩ := ih
    refine ⟨([], t.lexeme) :: pieces, g, ?_, ?_⟩
    · simpa using hmap
    · have hsplit := drop_split src (Nat.le_of_lt hij)
      conv_lhs => rw [hsplit]
      rw [heq, hlex]
      simp [interleave]

namespace Scanner

theorem scan_loop_layout : ∀ (fuel : Nat) (s : Scanner) (ts : List Token),
    IsAsciiSrc s.source →
    s.current ≤ s.source.length →
    s.line = nl (s.source.take s.current) →
    scan_loop fuel s = .ok ts →
    ∃ rest : List Token,
      ts = s.tokens ++ rest ++
        [{ token_type := .Eof, lexeme := [], literal := none, line := nl s.source }] ∧
      (∀ t ∈ rest, t.token_type ≠ .Eof) ∧
      Cover s.source s.current rest := by
  intro fuel
  induction fuel with
  | zero =>
    intro s ts _ _ _ h
    cases h
  | succ n ih =>
    intro s ts hasc hle hline h
    unfold scan_loop at h
    split at h
    · rename_i hae
      have hae' : byteLen s.source ≤ s.current := hae
      have hb := byteLen_of_ascii (l := s.source) hasc
      have hcur : s.current = s.source.length := by omega
      injection h with h1
      have hsl : s.line = nl s.source := by
        rw [hline, hcur, List.take_length]
      refine ⟨[], ?_, (by intro t ht; cases ht), Cover.done _ (by omega)⟩
      rw [← h1, ← hsl]
      simp
    · rename_i hnae
      split at h
      · rename_i s' hok
        have hinv := scan_token_inv (s := { s with start := s.current })
          (by exact hasc) rfl (by exact hle) hok
        obtain ⟨i1, i2, i3, i4, i5, i6⟩ := hinv
        dsimp only at i1 i2 i3 i4 i5 i6
        have hline' : s'.line = nl (s.source.take s'.current) := by omega
        have ih' := ih s' ts (by rw [i1]; exact hasc) (by rw [i1]; exact i4)
          (by rw [i1]; exact hline') h
        rw [i1] at ih'
        obtain ⟨rest, hts, hnoeof, hcov⟩ := ih'
        rcases i6 with hsame | ⟨t, htok, hlex, htl, hne⟩
        · refine ⟨rest, ?_, hnoeof, Cover.skip _ s'.current rest i3 i4 hcov⟩
          rw [hts, hsame]
        · refine ⟨t :: rest, ?_, ?_, Cover.tok _ s'.current t rest i3 i4 hlex ?_ hcov⟩
          · rw [hts, htok]
            simp
          · intro u hu
            rcases List.mem_cons.mp hu with rfl | hu'
            · exact hne
            · exact hnoeof u hu'
          · rw [htl, hline']
      · cases h
      · cases h
      · cases h

end Scanner

/-- `scan_tokens` layout: on success the token list is a `Cover` of the whole
source followed by the final `Eof` token. -/
theorem scan_tokens_layout {source : List Char} {ts : List Token}
    (h : scan_tokens source = .ok ts) :
    ∃ rest : List Token,
      ts = rest ++
        [{ token_type := .Eof, lexeme := [], literal := none, line := nl source }] ∧
      (∀ t ∈ rest, t.token_type ≠ .Eof) ∧
      Cover source 0 rest := by
  have hasc := scan_tokens_ok_ascii h
  obtain ⟨rest, hts, hno, hcov⟩ := Scanner.scan_loop_layout (source.length + 2)
    (Scanner.new source) ts hasc (Nat.zero_le _) rfl h
  simp only [Scanner.new] at hts
  exact ⟨rest, by simpa using hts, hno, hcov⟩

end RsLox

namespace RsLox

/-! ### Claim theorems -/

/-- C4 (corrected): when the remaining source holds no closing double quote,
`Scanner::string` reports "Unterminated string" at the line reached after
consuming the rest of the source (the current line plus every remaining
newline), not at the line of the opening quote. -/
theorem C4_unterminated_string {s : Scanner}
    (hasc : IsAsciiSrc s.source) (hle : s.current ≤ s.source.length)
    (hnq : '"' ∉ s.source.drop s.current) :
    Scanner.string s = .err { line := s.line + nl (s.source.drop s.current),
                              message := "Unterminated string" } := by
  unfold Scanner.string
  rw [Scanner.string_loop_unterminated (s.source.length + 1) s hasc hle hnq (by omega)]
  dsimp only
  have hae : Scanner.is_at_end { s with
      current := s.source.length
      line := s.line + nl (s.source.drop s.current) } := by
    show byteLen s.source ≤ s.source.length
    rw [byteLen_of_ascii hasc]
  rw [if_pos hae]

/-- C6: at the start of a lexeme, each of `!`, `=`, `<`, `>` followed by `=`
produces the single two-character operator token (consuming both characters,
never two one-character tokens), and followed by any other character or by
the end of the source produces the corresponding one-character token. -/
theorem C6_two_char_operators {s : Scanner} {c1 : Char} {k1 k2 : TokenType}
    (hasc : IsAsciiSrc s.source) (hst : s.start = s.current)
    (hg : s.source.get? s.current = some c1)
    (hc : (c1, k1, k2) ∈ [('!', TokenType.Bang, TokenType.BangEqual),
      ('=', TokenType.Equal, TokenType.EqualEqual),
      ('<', TokenType.Less, TokenType.LessEqual),
      ('>', TokenType.Greater, TokenType.GreaterEqual)]) :
    (s.source.get? (s.current + 1) = some '=' →
      Scanner.scan_token s = .ok { s with
        current := s.current + 1 + 1
        tokens := s.tokens ++
          [{ token_type := k2, lexeme := [c1, '='], literal := none, line := s.line }] }) ∧
    (∀ r : Char, s.source.get? (s.current + 1) = some r → r ≠ '=' →
      Scanner.scan_token s = .ok { s with
        current := s.current + 1
        tokens := s.tokens ++
          [{ token_type := k1, lexeme := [c1], literal := none, line := s.line }] }) ∧
    (s.source.get? (s.current + 1) = none →
      Scanner.scan_token s = .ok { s with
        current := s.current + 1
        tokens := s.tokens ++
          [{ token_type := k1, lexeme := [c1], literal := none, line := s.line }] }) := by
  have hlt := Scanner.get?_lt hg
  have e1 := drop_eq_cons_of_get? hg
  simp only [List.mem_cons, List.not_mem_nil, or_false, Prod.mk.injEq] at hc
  rcases hc with ⟨rfl, rfl, rfl⟩ | ⟨rfl, rfl, rfl⟩ | ⟨rfl, rfl, rfl⟩ | ⟨rfl, rfl, rfl⟩
  · have hchunk1 : (s.source.drop s.start).take (s.current + 1 - s.start) = ['!'] := by
      rw [hst, e1]
      have hs1 : s.current + 1 - s.current = 1 := by omega
      rw [hs1]
      rfl
    refine ⟨?_, ?_, ?_⟩
    · intro hg2
      have hlt2 := Scanner.get?_lt hg2
      have e2 := drop_eq_cons_of_get? hg2
      have hchunk2 : (s.source.drop s.start).take (s.current + 1 + 1 - s.start) = ['!', '='] := by
        rw [hst, e1, e2]
        have hs2 : s.current + 1 + 1 - s.current = 2 := by omega
        rw [hs2]
        rfl
      unfold Scanner.scan_token
      rw [Scanner.advance_eq hg]
      dsimp only
      rw [if_neg (by decide)]
      rw [if_neg (by decide)]
      rw [if_neg (by decide)]
      rw [if_neg (by decide)]
      rw [if_neg (by decide)]
      rw [if_neg (by decide)]
      rw [if_neg (by decide)]
      rw [if_neg (by decide)]
      rw [if_neg (by decide)]
      rw [if_neg (by decide)]
      rw [if_pos rfl]
      rw [Scanner.match_char_hit (s := { s with current := s.current + 1 }) hg2 rfl]
      dsimp only
      rw [if_pos rfl]
      rw [Scanner.add_token_eq .BangEqual (by exact hasc) (by dsimp only; omega) (by dsimp only; omega)]
      dsimp only
      rw [hchunk2]
    · intro r hg2 hr
      unfold Scanner.scan_token
      rw [Scanner.advance_eq hg]
      dsimp only
      rw [if_neg (by decide)]
      rw [if_neg (by decide)]
      rw [if_neg (by decide)]
      rw [if_neg (by decide)]
      rw [if_neg (by decide)]
      rw [if_neg (by decide)]
      rw [if_neg (by decide)]
      rw [if_neg (by decide)]
      rw [if_neg (by decide)]
      rw [if_neg (by decide)]
      rw [if_pos rfl]
      rw [Scanner.match_char_miss (s := { s with current := s.current + 1 }) hg2 hr]
      dsimp only
      rw [if_neg (by decide)]
      rw [Scanner.add_token_eq .Bang (by exact hasc) (by dsimp only; omega) (by dsimp only; omega)]
      dsimp only
      rw [hchunk1]
    · intro hg2
      unfold Scanner.scan_token
      rw [Scanner.advance_eq hg]
      dsimp only
      rw [if_neg (by decide)]
      rw [if_neg (by decide)]
      rw [if_neg (by decide)]
      rw [if_neg (by decide)]
      rw [if_neg (by decide)]
      rw [if_neg (by decide)]
      rw [if_neg (by decide)]
      rw [if_neg (by decide)]
      rw [if_neg (by decide)]
      rw [if_neg (by decide)]
      rw [if_pos rfl]
      rw [Scanner.match_char_none (s := { s with current := s.current + 1 }) '=' hg2]
      dsimp only
      rw [if_neg (by decide)]
      rw [Scanner.add_token_eq .Bang (by exact hasc) (by dsimp only; omega) (by dsimp only; omega)]
      dsimp only
      rw [hchunk1]
  · have hchunk1 : (s.source.drop s.start).take (s.current + 1 - s.start) = ['='] := by
      rw [hst, e1]
      have hs1 : s.current + 1 - s.current = 1 := by omega
      rw [hs1]
      rfl
    refine ⟨?_, ?_, ?_⟩
    · intro hg2
      have hlt2 := Scanner.get?_lt hg2
      have e2 := drop_eq_cons_of_get? hg2
      have hchunk2 : (s.source.drop s.start).take (s.current + 1 + 1 - s.start) = ['=', '='] := by
        rw [hst, e1, e2]
        have hs2 : s.current + 1 + 1 - s.current = 2 := by omega
        rw [hs2]
        rfl
      unfold Scanner.scan_token
      rw [Scanner.advance_eq hg]
      dsimp only
      rw [if_neg (by decide)]
      rw [if_neg (by decide)]
      rw [if_neg (by decide)]
      rw [if_neg (by decide)]
      rw [if_neg (by decide)]
      rw [if_neg (by decide)]
      rw [if_neg (by decide)]
      rw [if_neg (by decide)]
      rw [if_neg (by decide)]
      rw [if_neg (by decide)]
      rw [if_neg (by decide)]
      rw [if_pos rfl]
      rw [Scanner.match_char_hit (s := { s with current := s.current + 1 }) hg2 rfl]
      dsimp only
      rw [if_pos rfl]
      rw [Scanner.add_token_eq .EqualEqual (by exact hasc) (by dsimp only; omega) (by dsimp only; omega)]
      dsimp only
      rw [hchunk2]
    · intro r hg2 hr
      unfold Scanner.scan_token
      rw [Scanner.advance_eq hg]
      dsimp only
      rw [if_neg (by decide)]
      rw [if_neg (by decide)]
      rw [if_neg (by decide)]
      rw [if_neg (by decide)]
      rw [if_neg (by decide)]
      rw [if_neg (by decide)]
      rw [if_neg (by decide)]
      rw [if_neg (by decide)]
      rw [if_neg (by decide)]
      rw [if_neg (by decide)]
      rw [if_neg (by decide)]
      rw [if_pos rfl]
      rw [Scanner.match_char_miss (s := { s with current := s.current + 1 }) hg2 hr]
      dsimp only
      rw [if_neg (by decide)]
      rw [Scanner.add_token_eq .Equal (by exact hasc) (by dsimp only; omega) (by dsimp only; omega)]
      dsimp only
      rw [hchunk1]
    · intro hg2
      unfold Scanner.scan_token
      rw [Scanner.advance_eq hg]
      dsimp only
      rw [if_neg (by decide)]
      rw [if_neg (by decide)]
      rw [if_neg (by decide)]
      rw [if_neg (by decide)]
      rw [if_neg (by decide)]
      rw [if_neg (by decide)]
      rw [if_neg (by decide)]
      rw [if_neg (by decide)]
      rw [if_neg (by decide)]
      rw [if_neg (by decide)]
      rw [if_neg (by decide)]
      rw [if_pos rfl]
      rw [Scanner.match_char_none (s := { s with current := s.current + 1 }) '=' hg2]
      dsimp only
      rw [if_neg (by decide)]
      rw [Scanner.add_token_eq .Equal (by exact hasc) (by dsimp only; omega) (by dsimp only; omega)]
      dsimp only
      rw [hchunk1]
  · have hchunk1 : (s.source.drop s.start).take (s.current + 1 - s.start) = ['<'] := by
      rw [hst, e1]
      have hs1 : s.current + 1 - s.current = 1 := by omega
      rw [hs1]
      rfl
    refine ⟨?_, ?_, ?_⟩
    · intro hg2
      have hlt2 := Scanner.get?_lt hg2
      have e2 := drop_eq_cons_of_get? hg2
      have hchunk2 : (s.source.drop s.start).take (s.current + 1 + 1 - s.start) = ['<', '='] := by
        rw [hst, e1, e2]
        have hs2 : s.current + 1 + 1 - s.current = 2 := by omega
        rw [hs2]
        rfl
      unfold Scanner.scan_token
      rw [Scanner.advance_eq hg]
      dsimp only
      rw [if_neg (by decide)]
      rw [if_neg (by decide)]
      rw [if_neg (by decide)]
      rw [if_neg (by decide)]
      rw [if_neg (by decide)]
      rw [if_neg (by decide)]
      rw [if_neg (by decide)]
      rw [if_neg (by decide)]
      rw [if_neg (by decide)]
      rw [if_neg (by decide)]
      rw [if_neg (by decide)]
      rw [if_neg (by decide)]
      rw [if_pos rfl]
      rw [Scanner.match_char_hit (s := { s with current := s.current + 1 }) hg2 rfl]
      dsimp only
      rw [if_pos rfl]
      rw [Scanner.add_token_eq .LessEqual (by exact hasc) (by dsimp only; omega) (by dsimp only; omega)]
      dsimp only
      rw [hchunk2]
    · intro r hg2 hr
      unfold Scanner.scan_token
      rw [Scanner.advance_eq hg]
      dsimp only
      rw [if_neg (by decide)]
      rw [if_neg (by decide)]
      rw [if_neg (by decide)]
      rw [if_neg (by decide)]
      rw [if_neg (by decide)]
      rw [if_neg (by decide)]
      rw [if_neg (by decide)]
      rw [if_neg (by decide)]
      rw [if_neg (by decide)]
      rw [if_neg (by decide)]
      rw [if_neg (by decide)]
      rw [if_neg (by decide)]
      rw [if_pos rfl]
      rw [Scanner.match_char_miss (s := { s with current := s.current + 1 }) hg2 hr]
      dsimp only
      rw [if_neg (by decide)]
      rw [Scanner.add_token_eq .Less (by exact hasc) (by dsimp only; omega) (by dsimp only; omega)]
      dsimp only
      rw [hchunk1]
    · intro hg2
      unfold Scanner.scan_token
      rw [Scanner.advance_eq hg]
      dsimp only
      rw [if_neg (by decide)]
      rw [if_neg (by decide)]
      rw [if_neg (by decide)]
      rw [if_neg (by decide)]
      rw [if_neg (by decide)]
      rw [if_neg (by decide)]
      rw [if_neg (by decide)]
      rw [if_neg (by decide)]
      rw [if_neg (by decide)]
      rw [if_neg (by decide)]
      rw [if_neg (by decide)]
      rw [if_neg (by decide)]
      rw [if_pos rfl]
      rw [Scanner.match_char_none (s := { s with current := s.current + 1 }) '=' hg2]
      dsimp only
      rw [if_neg (by decide)]
      rw [Scanner.add_token_eq .Less (by exact hasc) (by dsimp only; omega) (by dsimp only; omega)]
      dsimp only
      rw [hchunk1]
  · have hchunk1 : (s.source.drop s.start).take (s.current + 1 - s.start) = ['>'] := by
      rw [hst, e1]
      have hs1 : s.current + 1 - s.current = 1 := by omega
      rw [hs1]
      rfl
    refine ⟨?_, ?_, ?_⟩
    · intro hg2
      have hlt2 := Scanner.get?_lt hg2
      have e2 := drop_eq_cons_of_get? hg2
      have hchunk2 : (s.source.drop s.start).take (s.current + 1 + 1 - s.start) = ['>', '='] := by
        rw [hst, e1, e2]
        have hs2 : s.current + 1 + 1 - s.current = 2 := by omega
        rw [hs2]
        rfl
      unfold Scanner.scan_token
      rw [Scanner.advance_eq hg]
      dsimp only
      rw [if_neg (by decide)]
      rw [if_neg (by decide)]
      rw [if_neg (by decide)]
      rw [if_neg (by decide)]
      rw [if_neg (by decide)]
      rw [if_neg (by decide)]
      rw [if_neg (by decide)]
      rw [if_neg (by decide)]
      rw [if_neg (by decide)]
      rw [if_neg (by decide)]
      rw [if_neg (by decide)]
      rw [if_neg (by decide)]
      rw [if_neg (by decide)]
      rw [if_pos rfl]
      rw [Scanner.match_char_hit (s := { s with current := s.current + 1 }) hg2 rfl]
      dsimp only
      rw [if_pos rfl]
      rw [Scanner.add_token_eq .GreaterEqual (by exact hasc) (by dsimp only; omega) (by dsimp only; omega)]
      dsimp only
      rw [hchunk2]
    · intro r hg2 hr
      unfold Scanner.scan_token
      rw [Scanner.advance_eq hg]
      dsimp only
      rw [if_neg (by decide)]
      rw [if_neg (by decide)]
      rw [if_neg (by decide)]
      rw [if_neg (by decide)]
      rw [if_neg (by decide)]
      rw [if_neg (by decide)]
      rw [if_neg (by decide)]
      rw [if_neg (by decide)]
      rw [if_neg (by decide)]
      rw [if_neg (by decide)]
      rw [if_neg (by decide)]
      rw [if_neg (by decide)]
      rw [if_neg (by decide)]
      rw [if_pos rfl]
      rw [Scanner.match_char_miss (s := { s with current := s.current + 1 }) hg2 hr]
      dsimp only
      rw [if_neg (by decide)]
      rw [Scanner.add_token_eq .Greater (by exact hasc) (by dsimp only; omega) (by dsimp only; omega)]
      dsimp only
      rw [hchunk1]
    · intro hg2
      unfold Scanner.scan_token
      rw [Scanner.advance_eq hg]
      dsimp only
      rw [if_neg (by decide)]
      rw [if_neg (by decide)]
      rw [if_neg (by decide)]
      rw [if_neg (by decide)]
      rw [if_neg (by decide)]
      rw [if_neg (by decide)]
      rw [if_neg (by decide)]
      rw [if_neg (by decide)]
      rw [if_neg (by decide)]
      rw [if_neg (by decide)]
      rw [if_neg (by decide)]
      rw [if_neg (by decide)]
      rw [if_neg (by decide)]
      rw [if_pos rfl]
      rw [Scanner.match_char_none (s := { s with current := s.current + 1 }) '=' hg2]
      dsimp only
      rw [if_neg (by decide)]
      rw [Scanner.add_token_eq .Greater (by exact hasc) (by dsimp only; omega) (by dsimp only; omega)]
      dsimp only
      rw [hchunk1]

end RsLox

namespace RsLox

/-- C1: on success the token list is non-empty, its last element is the `Eof`
token with an empty lexeme and no literal, and no other element is an `Eof`
token. -/
theorem C1_eof_structure {source : List Char} {ts : List Token}
    (h : scan_tokens source = .ok ts) :
    ts ≠ [] ∧ ∃ (rest : List Token) (lf : Nat),
      ts = rest ++ [{ token_type := .Eof, lexeme := [], literal := none, line := lf }] ∧
      ∀ t ∈ rest, t.token_type ≠ .Eof := by
  obtain ⟨rest, hts, hno, _⟩ := scan_tokens_layout h
  refine ⟨?_, rest, nl source, hts, hno⟩
  rw [hts]
  simp

theorem C1_eof_structure_witness :
    ([{ token_type := .Plus, lexeme := ['+'], literal := none, line := 0 },
      { token_type := .Eof, lexeme := [], literal := none, line := 0 }] : List Token) ≠ [] ∧
    ∃ (rest : List Token) (lf : Nat),
      [{ token_type := TokenType.Plus, lexeme := ['+'], literal := none, line := 0 },
       { token_type := .Eof, lexeme := [], literal := none, line := 0 }] = rest ++
        [{ token_type := .Eof, lexeme := [], literal := none, line := lf }] ∧
      ∀ t ∈ rest, t.token_type ≠ .Eof :=
  C1_eof_structure (rfl : scan_tokens ['+'] = _)

/-- C2: on success the non-`Eof` tokens form a `Cover` of the source: each
lexeme is the verbatim contiguous slice of the source consumed for its token,
in source order, and concatenating the lexemes in order with the skipped
characters reinserted at their original positions reproduces the source
exactly. -/
theorem C2_lexeme_roundtrip {source : List Char} {ts : List Token}
    (h : scan_tokens source = .ok ts) :
    ∃ rest : List Token,
      ts = rest ++ [{ token_type := .Eof, lexeme := [], literal := none, line := nl source }] ∧
      Cover source 0 rest ∧
      ∃ (pieces : List (List Char × List Char)) (g : List Char),
        pieces.map Prod.snd = rest.map Token.lexeme ∧
        source = interleave pieces ++ g := by
  obtain ⟨rest, hts, hno, hcov⟩ := scan_tokens_layout h
  obtain ⟨pieces, g, hmap, heq⟩ := cover_interleave hcov
  refine ⟨rest, hts, hcov, pieces, g, hmap, ?_⟩
  rw [← heq, List.drop_zero]

theorem C2_lexeme_roundtrip_witness :
    ∃ rest : List Token,
      [{ token_type := TokenType.LeftParen, lexeme := ['('], literal := none, line := 0 },
       { token_type := .RightParen, lexeme := [')'], literal := none, line := 0 },
       { token_type := .Eof, lexeme := [], literal := none, line := 0 }] = rest ++
        [{ token_type := .Eof, lexeme := [], literal := none, line := nl ['(', ')'] }] ∧
      Cover ['(', ')'] 0 rest ∧
      ∃ (pieces : List (List Char × List Char)) (g : List Char),
        pieces.map Prod.snd = rest.map Token.lexeme ∧
        ['(', ')'] = interleave pieces ++ g :=
  C2_lexeme_roundtrip (rfl : scan_tokens ['(', ')'] = _)

/-- C3 (corrected): each non-`Eof` token's `line` equals the base 0 plus the
newlines of the source strictly before the END of its lexeme (the value of
`line` at the moment the token is emitted); when the lexeme itself contains
no newline -- every token except a string literal spanning lines -- this
equals the newlines strictly before the lexeme's first character, as the
original claim states. -/
theorem C3_token_lines {source : List Char} {ts : List Token}
    (h : scan_tokens source = .ok ts) :
    ∀ t ∈ ts, t.token_type ≠ .Eof →
      ∃ a b : Nat, a < b ∧ b ≤ source.length ∧
        t.lexeme = (source.drop a).take (b - a) ∧
        t.line = 0 + nl (source.take b) ∧
        ('\n' ∉ t.lexeme → t.line = 0 + nl (source.take a)) := by
  obtain ⟨rest, hts, hno, hcov⟩ := scan_tokens_layout h
  intro t ht hne
  have htr : t ∈ rest := by
    rw [hts] at ht
    rcases List.mem_append.mp ht with h1 | h1
    · exact h1
    · rw [List.mem_singleton] at h1
      subst h1
      exact absurd rfl hne
  obtain ⟨a, b, hab, hb, hlex, hline⟩ := cover_mem hcov t htr
  refine ⟨a, b, hab, hb, hlex, by rw [hline, Nat.zero_add], ?_⟩
  intro hnn
  have hz := nl_chunk_zero hlex.symm (Nat.le_of_lt hab) hnn
  rw [hline, hz, Nat.zero_add]

/-- C3 counterexample: `Scanner::new` starts `line` at 0 and the one-token
source "x" reports line 0, fixing the base at 0; yet the string token of
source `"\n"` (opening quote on line 0, zero newlines strictly before its
lexeme starts) reports line 1: the token's line is the newline count at the
END of its lexeme, not before its start. -/
theorem C3_line_counterexample :
    scan_tokens ['x'] = .ok
      [{ token_type := .Identifier, lexeme := ['x'], literal := none, line := 0 },
       { token_type := .Eof, lexeme := [], literal := none, line := 0 }] ∧
    scan_tokens ['"', '\n', '"'] = .ok
      [{ token_type := .String, lexeme := ['"', '\n', '"'], literal := some (.String ['\n']), line := 1 },
       { token_type := .Eof, lexeme := [], literal := none, line := 1 }] ∧
    nl (List.take 0 ['"', '\n', '"']) = 0 :=
  ⟨rfl, rfl, rfl⟩

theorem C3_token_lines_witness :
    ∃ a b : Nat, a < b ∧ b ≤ (['x'] : List Char).length ∧
      (['x'] : List Char) = (List.drop a ['x']).take (b - a) ∧
      0 = 0 + nl (List.take b ['x']) ∧
      ('\n' ∉ (['x'] : List Char) → 0 = 0 + nl (List.take a ['x'])) :=
  C3_token_lines (rfl : scan_tokens ['x'] = _)
    { token_type := .Identifier, lexeme := ['x'], literal := none, line := 0 }
    (by decide) (by decide)

/-- C4 counterexample: for source `"\n` the opening quote sits on line 0, yet
the unterminated-string error reports line 1, the line reached at the end of
the source. -/
theorem C4_line_counterexample :
    scan_tokens ['"', '\n'] = .err { line := 1, message := "Unterminated string" } ∧
    (1 : Nat) ≠ 0 :=
  ⟨rfl, by decide⟩

theorem C4_unterminated_string_witness :
    Scanner.string { source := ['"', '\n'], tokens := [], start := 0, current := 1, line := 0 } =
      .err { line := 0 + nl (List.drop 1 ['"', '\n']), message := "Unterminated string" } :=
  C4_unterminated_string (by unfold IsAsciiSrc; decide) (by decide) (by decide)

/-- C5 (corrected): error line numbers are 0-based, not 1-based:
`Scanner::new` starts `line` at 0, so an error caused by a character on the
first line of the source, with no preceding newline, reports line 0. -/
theorem C5_error_line_base {source : List Char} {e : LoxError}
    (h : scan_tokens source = .err e) (hnn : '\n' ∉ source) : e.line = 0 :=
  Scanner.scan_loop_err_line (source.length + 2) (Scanner.new source) e hnn h

/-- C5 counterexample: the unexpected character `@` on the first line is
reported at line 0, not 1. -/
theorem C5_line_counterexample :
    scan_tokens ['@'] = .err { line := 0, message := "Unexpected character" } ∧
    (0 : Nat) ≠ 1 :=
  ⟨rfl, by decide⟩

theorem C5_error_line_base_witness :
    LoxError.line { line := 0, message := "Unexpected character" } = 0 :=
  C5_error_line_base (rfl : scan_tokens ['@'] = _) (by decide)

theorem C6_two_char_operators_witness :
    Scanner.scan_token (Scanner.new ['!', '=']) =
      .ok ⟨['!', '='],
        [{ token_type := TokenType.BangEqual, lexeme := ['!', '='], literal := none, line := 0 }],
        0, 2, 0⟩ :=
  (@C6_two_char_operators (Scanner.new ['!', '=']) '!' TokenType.Bang TokenType.BangEqual
    (by unfold IsAsciiSrc; decide) rfl rfl (by decide)).1 rfl

/-- C7: after the maximal digit run, `Scanner::number` consumes a `.` and a
further maximal digit run only when the `.` is immediately followed by at
least one digit (two-character lookahead via `peek_next`); in particular the
input "1." yields a `Number` token with lexeme "1" followed by a `Dot`
token. -/
theorem C7_number_lookahead {s : Scanner} {d : Char}
    (hasc : IsAsciiSrc s.source) (hst : s.start + 1 = s.current)
    (hle : s.current ≤ s.source.length)
    (hd0 : s.source.get? s.start = some d) (hdd : d.isDigit = true) :
    scan_tokens ['1', '.'] = .ok
      [{ token_type := .Number, lexeme := ['1'], literal := some (.Number ['1']), line := 0 },
       { token_type := .Dot, lexeme := ['.'], literal := none, line := 0 },
       { token_type := .Eof, lexeme := [], literal := none, line := 0 }] ∧
    (¬ (s.source.get? (s.current + (digit_run s.source s.current).length) = some '.' ∧
        ∃ e, s.source.get? (s.current + (digit_run s.source s.current).length + 1) = some e ∧
          e.isDigit = true) →
      Scanner.number s = .ok { s with
        current := s.current + (digit_run s.source s.current).length
        tokens := s.tokens ++
          [{ token_type := .Number, lexeme := d :: digit_run s.source s.current,
             literal := some (.Number (d :: digit_run s.source s.current)), line := s.line }] }) ∧
    (s.source.get? (s.current + (digit_run s.source s.current).length) = some '.' →
      ∀ e, s.source.get? (s.current + (digit_run s.source s.current).length + 1) = some e →
        e.isDigit = true →
      Scanner.number s = .ok { s with
        current := s.current + (digit_run s.source s.current).length + 1 +
          (digit_run s.source (s.current + (digit_run s.source s.current).length + 1)).length
        tokens := s.tokens ++
          [{ token_type := .Number,
             lexeme := d :: digit_run s.source s.current ++
               '.' :: digit_run s.source (s.current + (digit_run s.source s.current).length + 1),
             literal := some (.Number (d :: digit_run s.source s.current ++
               '.' :: digit_run s.source (s.current + (digit_run s.source s.current).length + 1))),
             line := s.line }] }) := by
  obtain ⟨_, _, _, _, hni, hyi⟩ := Scanner.number_spec (digit_run s.source s.current)
    (digit_run s.source (s.current + (digit_run s.source s.current).length + 1))
    (s.current + (digit_run s.source s.current).length)
    hasc hst hle hd0 hdd rfl rfl rfl
  exact ⟨rfl, hni, hyi⟩

theorem C7_number_lookahead_witness :
    Scanner.number { source := ['1', '.'], tokens := [], start := 0, current := 1, line := 0 } =
      .ok ⟨['1', '.'],
        [{ token_type := TokenType.Number, lexeme := ['1'], literal := some (.Number ['1']), line := 0 }],
        0, 1, 0⟩ :=
  (C7_number_lookahead (s := { source := ['1', '.'], tokens := [], start := 0, current := 1, line := 0 })
    (d := '1') (by unfold IsAsciiSrc; decide) rfl (by decide) rfl (by decide)).2.1
    (by
      rintro ⟨-, e, he, -⟩
      rw [show (['1', '.'] : List Char).get?
        (1 + (digit_run ['1', '.'] 1).length + 1) = none from rfl] at he
      cases he)

/-- C8: the `parse::<f64>().unwrap()` of `Scanner::number` never fails: a
lexeme of the digits or digits-dot-digits grammar always passes the `f64`
parse check, and `number`, started at a digit, never reaches the panic that
models the unwrap failing. -/
theorem C8_number_parse_ok {s : Scanner} {d : Char}
    (hasc : IsAsciiSrc s.source) (hst : s.start + 1 = s.current)
    (hle : s.current ≤ s.source.length)
    (hd0 : s.source.get? s.start = some d) (hdd : d.isDigit = true) :
    Scanner.number s ≠ .panic ∧
    (∀ a : List Char, a ≠ [] → (∀ c ∈ a, c.isDigit = true) →
      Scanner.f64_parse_ok a = true) ∧
    (∀ a f : List Char, a ≠ [] → (∀ c ∈ a, c.isDigit = true) →
      (∀ c ∈ f, c.isDigit = true) → Scanner.f64_parse_ok (a ++ '.' :: f) = true) :=
  ⟨Scanner.number_ne_panic hasc hst hle hd0 hdd,
   fun _ h1 h2 => Scanner.f64_ok_digits h1 h2,
   fun _ _ h1 h2 h3 => Scanner.f64_ok_digits_dot h1 h2 h3⟩

theorem C8_number_parse_ok_witness :
    Scanner.number { source := ['1', '2'], tokens := [], start := 0, current := 1, line := 0 } ≠
      .panic ∧
    (∀ a : List Char, a ≠ [] → (∀ c ∈ a, c.isDigit = true) →
      Scanner.f64_parse_ok a = true) ∧
    (∀ a f : List Char, a ≠ [] → (∀ c ∈ a, c.isDigit = true) →
      (∀ c ∈ f, c.isDigit = true) → Scanner.f64_parse_ok (a ++ '.' :: f) = true) :=
  C8_number_parse_ok (by unfold IsAsciiSrc; decide) rfl (by decide) rfl (by decide)

/-- C9: scanning terminates on every finite source: the fuel
`source.length + 2` never runs out because every successful `scan_token`
step strictly increases `current` while keeping it bounded by the source
length, and every internal loop only moves the cursor forward. -/
theorem C9_termination (source : List Char) :
    scan_tokens source ≠ .fuelOut ∧
    (∀ s s' : Scanner, Scanner.scan_token s = .ok s' →
      s.current < s'.current ∧
      (s.current ≤ s.source.length → s'.current ≤ s.source.length)) ∧
    (∀ fuel : Nat, ∀ t t' : Scanner, Scanner.comment_loop fuel t = .ok t' →
      t.current ≤ t'.current) ∧
    (∀ fuel : Nat, ∀ t t' : Scanner, Scanner.string_loop fuel t = .ok t' →
      t.current ≤ t'.current) ∧
    (∀ fuel : Nat, ∀ t t' : Scanner, Scanner.digits_loop fuel t = .ok t' →
      t.current ≤ t'.current) ∧
    (∀ fuel : Nat, ∀ t t' : Scanner, Scanner.ident_loop fuel t = .ok t' →
      t.current ≤ t'.current) := by
  refine ⟨?_, ?_, ?_, ?_, ?_, ?_⟩
  · exact Scanner.scan_loop_ne_fuelOut (source.length + 2) (Scanner.new source)
      (Nat.zero_le _) (by show source.length + 1 - 0 < source.length + 2; omega)
  · intro s s' h
    obtain ⟨h1, h2, h3, h4⟩ := Scanner.scan_token_shape h
    exact ⟨h2, h3⟩
  · intro fuel t t' h
    exact (Scanner.comment_loop_shape fuel t t' h).2.2.2.2.1
  · intro fuel t t' h
    exact (Scanner.string_loop_shape fuel t t' h).2.2.2.1
  · intro fuel t t' h
    exact (Scanner.digits_loop_shape fuel t t' h).2.2.2.2.1
  · intro fuel t t' h
    exact (Scanner.ident_loop_shape fuel t t' h).2.2.2.2.1

/-- C10: on a pure-ASCII source the character offsets held in
`start`/`current` coincide with byte offsets, so `scan_tokens` never panics,
and every byte-range slicing within bounds succeeds. -/
theorem C10_ascii_no_panic {source : List Char} (hasc : IsAsciiSrc source) :
    scan_tokens source ≠ .panic ∧
    ∀ a b : Nat, a ≤ b → b ≤ source.length →
      byteSlice source a b = some ((source.drop a).take (b - a)) :=
  ⟨Scanner.scan_loop_ne_panic (source.length + 2) (Scanner.new source) hasc (Nat.zero_le _),
   fun _ _ h1 h2 => byteSlice_ascii hasc h1 h2⟩

theorem C10_ascii_no_panic_witness :
    scan_tokens ['h', 'i'] ≠ .panic ∧
    ∀ a b : Nat, a ≤ b → b ≤ (['h', 'i'] : List Char).length →
      byteSlice ['h', 'i'] a b = some ((List.drop a ['h', 'i']).take (b - a)) :=
  C10_ascii_no_panic (by unfold IsAsciiSrc; decide)

end RsLox
